import Mathlib

/-!
Verification development for the HTML structural diffing engine in
`src/differ.py`.  The program delegates sequence alignment to CPython's
`difflib.SequenceMatcher` (called as `SequenceMatcher(None, old, new)`,
i.e. `isjunk=None` and the default `autojunk=True`); that algorithm is
embedded here verbatim alongside the functions of `differ.py` itself.
Floating point arithmetic is modelled by exact rationals.
-/

set_option linter.constructorNameAsVariable false

namespace Differ

/-! Embedding of difflib.SequenceMatcher.  With `isjunk=None` the junk set
`bjunk` is empty, so every `isbjunk` test in `find_longest_match` is False:
the two junk-extension loops never fire and the `not isbjunk(...)` guards of
the two main extension loops are always true.  Only the autojunk "popular"
filter on `b2j` remains. -/

structure Match3 where
  ai : Nat
  bj : Nat
  size : Nat
deriving DecidableEq, Repr

/-- The autojunk popularity test of `SequenceMatcher.__chain_b`: with
`autojunk=True`, when `len(b) >= 200` an element occurring more than
`len(b) // 100 + 1` times in `b` is purged from `b2j`. -/
def isPopular {α : Type} [DecidableEq α] (b : List α) (x : α) : Bool :=
  decide (200 ≤ b.length) && decide (b.length / 100 + 1 < b.count x)

/-- The lookup `b2j.get(x, [])`: the ascending list of positions of `x` in
`b`, empty when `x` is popular (purged by autojunk).  With `isjunk=None`
there is no other purging. -/
def b2j {α : Type} [DecidableEq α] (b : List α) (x : α) : List Nat :=
  if isPopular b x then []
  else (List.range b.length).filter (fun j => decide (b[j]? = some x))

structure FLMState where
  besti : Nat
  bestj : Nat
  bestsize : Nat
deriving DecidableEq, Repr

/-- One row of the `find_longest_match` DP: Python's inner
`for j in b2j.get(a[i], nothing)` loop.  `j2len` is the previous row's dict
(read-only here); the fold state carries `newj2len` (as a total function
defaulting to 0, matching `dict.get(key, 0)`) and the running best.
Python's `break` at `j >= bhi` is modelled as a skip, which agrees with it
because the index list is ascending.  Python reads `j2len.get(j-1, 0)`; for
`j = 0` the key is `-1`, never present in the dict, hence the `j = 0`
guard (natural subtraction would alias key `0`). -/
def flmRow (j2len : Nat → Nat) (blo bhi i : Nat) (idxs : List Nat)
    (st : FLMState) : (Nat → Nat) × FLMState :=
  idxs.foldl
    (fun acc j =>
      if j < blo then acc
      else if bhi ≤ j then acc
      else
        let k := (if j = 0 then 0 else j2len (j - 1)) + 1
        ((fun m => if m = j then k else acc.1 m),
          if acc.2.bestsize < k then ⟨i + 1 - k, j + 1 - k, k⟩ else acc.2))
    ((fun _ => 0), st)

/-- The DP phase of `find_longest_match`: rows `i = alo, ..., ahi-1`,
starting from `besti, bestj, bestsize = alo, blo, 0` and an empty dict. -/
def flmDP {α : Type} [DecidableEq α] (a b : List α)
    (alo ahi blo bhi : Nat) : FLMState :=
  ((List.range' alo (ahi - alo)).foldl
    (fun acc i => flmRow acc.1 blo bhi i ((a[i]?).elim [] (b2j b)) acc.2)
    ((fun _ => 0), ⟨alo, blo, 0⟩)).2

/-- The first extension loop of `find_longest_match` (its `not isbjunk`
guard is always true since `bjunk` is empty).  `fuel` bounds the iteration
count; each step requires `alo < besti` and decrements `besti`, so fuel
`st.besti` always suffices. -/
def extendLeft {α : Type} [DecidableEq α] (a b : List α) (alo blo : Nat) :
    Nat → FLMState → FLMState
  | 0, st => st
  | fuel + 1, st =>
    if alo < st.besti ∧ blo < st.bestj ∧ (a[st.besti - 1]?).isSome ∧
        a[st.besti - 1]? = b[st.bestj - 1]? then
      extendLeft a b alo blo fuel ⟨st.besti - 1, st.bestj - 1, st.bestsize + 1⟩
    else st

/-- The second extension loop of `find_longest_match`.  Each step requires
`besti + bestsize < ahi` and increments `bestsize`, so fuel
`ahi - (besti + bestsize)` always suffices. -/
def extendRight {α : Type} [DecidableEq α] (a b : List α) (ahi bhi : Nat) :
    Nat → FLMState → FLMState
  | 0, st => st
  | fuel + 1, st =>
    if st.besti + st.bestsize < ahi ∧ st.bestj + st.bestsize < bhi ∧
        (a[st.besti + st.bestsize]?).isSome ∧
        a[st.besti + st.bestsize]? = b[st.bestj + st.bestsize]? then
      extendRight a b ahi bhi fuel ⟨st.besti, st.bestj, st.bestsize + 1⟩
    else st

/-- `SequenceMatcher.find_longest_match` on the window
`a[alo:ahi]`, `b[blo:bhi]` (the two junk-extension loops are omitted:
they never fire with `isjunk=None`). -/
def find_longest_match {α : Type} [DecidableEq α] (a b : List α)
    (alo ahi blo bhi : Nat) : Match3 :=
  let st0 := flmDP a b alo ahi blo bhi
  let st1 := extendLeft a b alo blo st0.besti st0
  let st2 := extendRight a b ahi bhi (ahi - (st1.besti + st1.bestsize)) st1
  ⟨st2.besti, st2.bestj, st2.bestsize⟩

/-- One rectangle of the `get_matching_blocks` work queue. -/
structure Rect where
  alo : Nat
  ahi : Nat
  blo : Nat
  bhi : Nat
deriving DecidableEq, Repr

def rectSize (r : Rect) : Nat := (r.ahi - r.alo) + (r.bhi - r.blo) + 1

/-- Python's `while queue:` loop of `get_matching_blocks`, with the stack
top at the list head (Python pushes the left rectangle, then the right,
and pops the right first).  `fuel` bounds the number of iterations; the
total of `rectSize` over the queue strictly decreases each iteration, so
fuel `a.length + b.length + 1` always suffices for the initial queue. -/
def mbLoop {α : Type} [DecidableEq α] (a b : List α) :
    Nat → List Rect → List Match3 → List Match3
  | 0, _, acc => acc
  | _ + 1, [], acc => acc
  | fuel + 1, r :: rest, acc =>
    let x := find_longest_match a b r.alo r.ahi r.blo r.bhi
    if x.size = 0 then mbLoop a b fuel rest acc
    else
      let qLeft : List Rect :=
        if r.alo < x.ai ∧ r.blo < x.bj then [⟨r.alo, x.ai, r.blo, x.bj⟩]
        else []
      let qRight : List Rect :=
        if x.ai + x.size < r.ahi ∧ x.bj + x.size < r.bhi then
          [⟨x.ai + x.size, r.ahi, x.bj + x.size, r.bhi⟩]
        else []
      mbLoop a b fuel (qRight ++ qLeft ++ rest) (acc ++ [x])

/-- Lexicographic order on `(ai, bj, size)` triples: the order used by
`matching_blocks.sort()` on Python tuples. -/
def blockLe (x y : Match3) : Prop :=
  x.ai < y.ai ∨ (x.ai = y.ai ∧
    (x.bj < y.bj ∨ (x.bj = y.bj ∧ x.size ≤ y.size)))

instance : DecidableRel blockLe := fun x y => by
  unfold blockLe; infer_instance

/-- One step of the adjacent-block collapsing loop of
`get_matching_blocks`: the state is the pending block `(i1, j1, k1)`
(initially `(0, 0, 0)`) and the output accumulated so far. -/
def collapseStep (acc : Match3 × List Match3) (blk : Match3) :
    Match3 × List Match3 :=
  if acc.1.ai + acc.1.size = blk.ai ∧ acc.1.bj + acc.1.size = blk.bj then
    (⟨acc.1.ai, acc.1.bj, acc.1.size + blk.size⟩, acc.2)
  else
    (blk, acc.2 ++ if acc.1.size = 0 then [] else [acc.1])

/-- The adjacent-block collapsing pass of `get_matching_blocks`; the final
pending block is appended unless its size is 0 (the initial dummy). -/
def collapsePass (blocks : List Match3) : List Match3 :=
  let fin := blocks.foldl collapseStep (⟨0, 0, 0⟩, [])
  fin.2 ++ if fin.1.size = 0 then [] else [fin.1]

/-- `SequenceMatcher.get_matching_blocks`: run the queue loop, sort the
blocks (`matching_blocks.sort()`), collapse adjacent ones and append the
sentinel `(len(a), len(b), 0)`. -/
def get_matching_blocks {α : Type} [DecidableEq α] (a b : List α) :
    List Match3 :=
  let raw := mbLoop a b (a.length + b.length + 1)
    [⟨0, a.length, 0, b.length⟩] []
  collapsePass (raw.insertionSort blockLe) ++ [⟨a.length, b.length, 0⟩]

inductive OpTag
  | equal
  | replace
  | insert
  | delete
deriving DecidableEq, Repr

structure Opcode where
  tag : OpTag
  i1 : Nat
  i2 : Nat
  j1 : Nat
  j2 : Nat
deriving DecidableEq, Repr

/-- One step of the `get_opcodes` loop: the state is the cursor `(i, j)`
and the opcodes emitted so far; a gap opcode (replace, delete or insert,
depending on which sides are nonempty) is emitted before the block and an
equal opcode for the block itself when its size is nonzero. -/
def opStep (acc : Nat × Nat × List Opcode) (blk : Match3) :
    Nat × Nat × List Opcode :=
  let i := acc.1
  let j := acc.2.1
  let gap : List Opcode :=
    if i < blk.ai ∧ j < blk.bj then [⟨.replace, i, blk.ai, j, blk.bj⟩]
    else if i < blk.ai then [⟨.delete, i, blk.ai, j, blk.bj⟩]
    else if j < blk.bj then [⟨.insert, i, blk.ai, j, blk.bj⟩]
    else []
  let eqOp : List Opcode :=
    if blk.size = 0 then []
    else [⟨.equal, blk.ai, blk.ai + blk.size, blk.bj, blk.bj + blk.size⟩]
  (blk.ai + blk.size, blk.bj + blk.size, acc.2.2 ++ gap ++ eqOp)

/-- `SequenceMatcher.get_opcodes`: walk the matching blocks with a cursor
`(i, j)` starting at `(0, 0)`. -/
def get_opcodes {α : Type} [DecidableEq α] (a b : List α) : List Opcode :=
  ((get_matching_blocks a b).foldl opStep (0, 0, ([] : List Opcode))).2.2

/-- `SequenceMatcher.ratio()`: `2.0 * matches / (len(a) + len(b))`, where
`matches` sums the matching block sizes, and 1.0 on two empty sequences
(difflib's `_calculate_ratio`). -/
def ratioQ {α : Type} [DecidableEq α] (a b : List α) : ℚ :=
  let numMatches := ((get_matching_blocks a b).map Match3.size).sum
  if a.length + b.length = 0 then 1
  else 2 * (numMatches : ℚ) / ((a.length : ℚ) + (b.length : ℚ))

/-! Embedding of src/differ.py itself. -/

def LANDMARK_TAGS : List String :=
  ["header", "nav", "main", "aside", "footer", "section", "article"]

def IGNORED_TAGS : List String :=
  ["script", "style", "link", "meta", "noscript", "template"]

def LANDMARK_WEIGHT : ℚ := 0.40
def SKELETON_WEIGHT : ℚ := 0.60

def TAG_WEIGHT : ℚ := 0.30
def CLASS_WEIGHT : ℚ := 0.30
def ID_WEIGHT : ℚ := 0.20
def CHILD_COUNT_WEIGHT : ℚ := 0.20

/-- An attribute value as seen through BeautifulSoup's `element.get`:
either a plain string or a list of tokens (html.parser returns a token
list for multi-valued attributes such as `class`). -/
inductive AttrVal
  | str (s : String)
  | list (l : List String)
deriving DecidableEq, Repr

/-- A node of the parse tree: an element carrying its tag name, optional
`id` and `class` attribute values and its child nodes in document order,
or a non-element node (text, comment, ...). -/
inductive HNode
  | elem (tag : String) (idA : Option AttrVal) (clsA : Option AttrVal)
      (children : List HNode)
  | text (s : String)
deriving Repr

/-- A parsed document (the soup): its top-level nodes in document order. -/
abbrev HDoc := List HNode

def HNode.isElem : HNode → Bool
  | .elem _ _ _ _ => true
  | .text _ => false

def HNode.tagName : HNode → String
  | .elem t _ _ _ => t
  | .text _ => ""

def HNode.childNodes : HNode → List HNode
  | .elem _ _ _ ch => ch
  | .text _ => []

/-- The `NodeProfile` dataclass.  Python stores `classes` as a tuple, so the
derived (structural) equality compares class tokens in order and with
multiplicity, exactly like tuple equality. -/
structure NodeProfile where
  tag : String
  id_attr : String
  classes : List String
  child_count : Nat
deriving DecidableEq, Repr

/-- The `_make_profile` function: the `id` attribute is used only when it is
a plain string (otherwise empty string), the `class` attribute only when it
is a token list (otherwise empty tuple), and only element children are
counted. -/
def make_profile (tag : String) (idA clsA : Option AttrVal)
    (children : List HNode) : NodeProfile where
  tag := tag
  id_attr := match idA with
    | some (.str s) => s
    | _ => ""
  classes := match clsA with
    | some (.list l) => l
    | _ => []
  child_count := children.countP HNode.isElem

/-- All element nodes of a subtree in document (pre)order, the node itself
first: the traversal order of BeautifulSoup's `descendants` (and hence of
`find_all` and `find`). -/
def HNode.preElems : HNode → List HNode
  | .text _ => []
  | .elem t idA clsA ch =>
    .elem t idA clsA ch :: (ch.attach.map (fun c => HNode.preElems c.1)).flatten
decreasing_by
  cases c with
  | mk v hv => simpa using Nat.lt_of_lt_of_le (by simpa using List.sizeOf_lt_of_mem hv) (by simp)

/-- All element nodes of the document in document (pre)order. -/
def docElems (doc : HDoc) : List HNode :=
  (doc.map HNode.preElems).flatten

/-- The `extract_landmarks` function: `soup.find_all(LANDMARK_TAGS)` yields
the elements with a landmark tag in document order; their tag names are
collected. -/
def extract_landmarks (doc : HDoc) : List String :=
  ((docElems doc).filter (fun n => LANDMARK_TAGS.contains n.tagName)).map
    HNode.tagName

/-- `soup.find("body")`: the first element with tag `body` in document
(pre)order, if any. -/
def findBody (doc : HDoc) : Option HNode :=
  (docElems doc).find? (fun n => n.tagName == "body")

/-- The `extract_skeleton` function: profiles of the first body's direct
element children and their direct element children, skipping ignored tags
at both levels, each parent's profile immediately followed by its
qualifying children's profiles. -/
def extract_skeleton (doc : HDoc) : List NodeProfile :=
  match findBody doc with
  | none => []
  | some body =>
    body.childNodes.flatMap (fun child =>
      match child with
      | .text _ => []
      | .elem t idA clsA gch =>
        if IGNORED_TAGS.contains t then []
        else
          make_profile t idA clsA gch ::
            gch.flatMap (fun g =>
              match g with
              | .text _ => []
              | .elem gt gidA gclsA ggch =>
                if IGNORED_TAGS.contains gt then []
                else [make_profile gt gidA gclsA ggch]))

/-- The `node_diff` function: weighted per-node distance. -/
def node_diff (old new : NodeProfile) : ℚ :=
  let tag_diff : ℚ := if old.tag = new.tag then 0 else 1
  let old_classes := old.classes.toFinset
  let new_classes := new.classes.toFinset
  let class_diff : ℚ :=
    if old_classes ≠ ∅ ∨ new_classes ≠ ∅ then
      1 - ((old_classes ∩ new_classes).card : ℚ) /
        ((old_classes ∪ new_classes).card : ℚ)
    else 0
  let id_diff : ℚ := if old.id_attr = new.id_attr then 0 else 1
  let max_children := max old.child_count new.child_count
  let child_diff : ℚ :=
    if 0 < max_children then
      |(old.child_count : ℚ) - (new.child_count : ℚ)| / (max_children : ℚ)
    else 0
  tag_diff * TAG_WEIGHT + class_diff * CLASS_WEIGHT +
    id_diff * ID_WEIGHT + child_diff * CHILD_COUNT_WEIGHT

/-- The `landmark_diff` function. -/
def landmark_diff (old new : List String) : ℚ :=
  if old = [] ∧ new = [] then 0
  else 1 - ratioQ old new

/-- One iteration of the `skeleton_diff` opcode loop: the state is
`(total_diff, total_positions)`.  Python's slices `old[i1:i2]` and
`new[j1:j2]` clamp out-of-range bounds exactly like drop/take. -/
def skelStep (old new : List NodeProfile) (acc : ℚ × Nat) (op : Opcode) :
    ℚ × Nat :=
  match op.tag with
  | .equal => (acc.1, acc.2 + (op.i2 - op.i1))
  | .replace =>
    let old_slice := (old.drop op.i1).take (op.i2 - op.i1)
    let new_slice := (new.drop op.j1).take (op.j2 - op.j1)
    let count := max old_slice.length new_slice.length
    ((List.range count).foldl
      (fun d k =>
        match old_slice[k]?, new_slice[k]? with
        | some o, some n => d + node_diff o n
        | _, _ => d + 1) acc.1,
      acc.2 + count)
  | .insert => (acc.1 + ((op.j2 - op.j1 : Nat) : ℚ), acc.2 + (op.j2 - op.j1))
  | .delete => (acc.1 + ((op.i2 - op.i1 : Nat) : ℚ), acc.2 + (op.i2 - op.i1))

/-- The `skeleton_diff` function: the special cases for empty inputs, then
the accumulation over `get_opcodes` of per-position differences
(`total_diff`) and positions (`total_positions`). -/
def skeleton_diff (old new : List NodeProfile) : ℚ :=
  if old = [] ∧ new = [] then 0
  else if old = [] ∨ new = [] then 1
  else
    let tot := (get_opcodes old new).foldl (skelStep old new) (0, 0)
    if 0 < tot.2 then tot.1 / (tot.2 : ℚ) else 0

/-- The `diff_score` function, as a function of the two parse trees (reading
and parsing the files is the external parser's job). -/
def diff_score (oldDoc newDoc : HDoc) : ℚ :=
  landmark_diff (extract_landmarks oldDoc) (extract_landmarks newDoc) *
      LANDMARK_WEIGHT +
    skeleton_diff (extract_skeleton oldDoc) (extract_skeleton newDoc) *
      SKELETON_WEIGHT

/-- The `interpret_score` function. -/
def interpret_score (score : ℚ) : String :=
  if 0.40 < score then "Major structural rewrite detected"
  else if 0.15 < score then "Significant layout modifications detected"
  else "Minor structural changes"

/-! Notions used to state and prove the alignment-completeness and
identity properties of the embedded SequenceMatcher. -/

/-- The match ratio in the wording of the specification: the aligner's
scalar ratio, defined as 0 when both sequences are empty (difflib itself
returns 1.0 there; `landmark_diff` never consults it in that case). -/
def matchRatio {α : Type} [DecidableEq α] (a b : List α) : ℚ :=
  if a.length + b.length = 0 then 0 else ratioQ a b

/-- The state of `find_longest_match` stays inside the window
`[alo, ahi) × [blo, bhi)`. -/
def InRect (alo ahi blo bhi : Nat) (st : FLMState) : Prop :=
  alo ≤ st.besti ∧ st.besti + st.bestsize ≤ ahi ∧
    blo ≤ st.bestj ∧ st.bestj + st.bestsize ≤ bhi

/-- Block `m` lies strictly southwest of block `n`: it ends on both sides
before `n` begins. -/
def BlockSW (m n : Match3) : Prop :=
  m.ai + m.size ≤ n.ai ∧ m.bj + m.size ≤ n.bj

/-- Two matching blocks are compatible when one is entirely southwest of
the other. -/
def BlockComp (m n : Match3) : Prop := BlockSW m n ∨ BlockSW n m

/-- A collected matching block for sequences of lengths `la`, `lb`: nonzero
size, within bounds. -/
def BlockOk (la lb : Nat) (m : Match3) : Prop :=
  m.ai + m.size ≤ la ∧ m.bj + m.size ≤ lb ∧ 1 ≤ m.size

/-- A well-formed work rectangle for sequences of lengths `la`, `lb`. -/
def RectOk (la lb : Nat) (r : Rect) : Prop :=
  r.alo ≤ r.ahi ∧ r.ahi ≤ la ∧ r.blo ≤ r.bhi ∧ r.bhi ≤ lb

/-- Rectangle `r` lies strictly southwest of rectangle `s`. -/
def RectSW (r s : Rect) : Prop := r.ahi ≤ s.alo ∧ r.bhi ≤ s.blo

def RectComp (r s : Rect) : Prop := RectSW r s ∨ RectSW s r

/-- Block `m` and rectangle `r` do not interleave: the block ends before
the rectangle begins or starts after it ends, on both sides at once. -/
def BlockRectComp (m : Match3) (r : Rect) : Prop :=
  (m.ai + m.size ≤ r.alo ∧ m.bj + m.size ≤ r.blo) ∨
    (r.ahi ≤ m.ai ∧ r.bhi ≤ m.bj)

/-- `r` is a sub-rectangle of `s`. -/
def SubRect (r s : Rect) : Prop :=
  s.alo ≤ r.alo ∧ r.ahi ≤ s.ahi ∧ s.blo ≤ r.blo ∧ r.bhi ≤ s.bhi

def queueMeasure (q : List Rect) : Nat := (q.map rectSize).sum

/-- The blocks `ms`, read left to right starting from cursor `(i, j)`, are
in increasing index order (each block starts at or after the cursor) and
the cursor ends at `e`. -/
def ChainTo (i j : Nat) : List Match3 → Nat × Nat → Prop
  | [], e => e = (i, j)
  | m :: ms, e => i ≤ m.ai ∧ j ≤ m.bj ∧ ChainTo (m.ai + m.size) (m.bj + m.size) ms e

/-- The opcodes `ops` are in increasing index order and exactly partition
the index ranges from cursor `(i, j)` up to `e`, on both sides, with no
gaps or overlaps: each opcode begins exactly at the cursor and moves it to
its end, and the final cursor is `e`. -/
def OpsCover (i j : Nat) : List Opcode → Nat × Nat → Prop
  | [], e => e = (i, j)
  | op :: ops, e => op.i1 = i ∧ op.j1 = j ∧ op.i1 ≤ op.i2 ∧ op.j1 ≤ op.j2 ∧
      OpsCover op.i2 op.j2 ops e

/-- Total size of a list of matching blocks. -/
def blockSizeSum (bs : List Match3) : Nat := (bs.map Match3.size).sum

/-- Sum of the lengths (on the old side) of the Equal regions. -/
def equalSum (ops : List Opcode) : Nat :=
  ((ops.filter (fun op => decide (op.tag = OpTag.equal))).map
    (fun op => op.i2 - op.i1)).sum

/-! Closed forms for the DP of `find_longest_match` on a sequence matched
against itself: `selfCandB a i` says position `i` survives the autojunk
filter, `selfCandPairB a i j` says column `j` is a candidate of row `i`
(same element, not popular), `selfL a i j` is the dict entry `j2len[j]`
after processing row `i`, `selfD a i` its diagonal value in closed
recursive form, `selfM a i` the largest diagonal run over rows
`0, ..., i-1`, and `rowL a i` the dict passed into row `i`. -/

def selfCandB {α : Type} [DecidableEq α] (a : List α) (i : Nat) : Bool :=
  match a[i]? with
  | some x => !(isPopular a x)
  | none => false

def selfCandPairB {α : Type} [DecidableEq α] (a : List α) (i j : Nat) :
    Bool :=
  match a[i]? with
  | some x => !(isPopular a x) && decide (a[j]? = some x)
  | none => false

def selfD {α : Type} [DecidableEq α] (a : List α) : Nat → Nat
  | 0 => if selfCandB a 0 then 1 else 0
  | i + 1 => if selfCandB a (i + 1) then selfD a i + 1 else 0

def selfL {α : Type} [DecidableEq α] (a : List α) : Nat → Nat → Nat
  | 0, j => if selfCandPairB a 0 j then 1 else 0
  | i + 1, j =>
    if selfCandPairB a (i + 1) j then
      (if j = 0 then 0 else selfL a i (j - 1)) + 1
    else 0

def selfM {α : Type} [DecidableEq α] (a : List α) : Nat → Nat
  | 0 => 0
  | i + 1 => max (selfM a i) (selfD a i)

def rowL {α : Type} [DecidableEq α] (a : List α) : Nat → Nat → Nat
  | 0, _ => 0
  | i + 1, j => selfL a i j

/-- The best-state component of one step of the DP row loop (within a row
the function component of the fold in `flmRow` does not feed back into the
best state: `k` is read from the previous row's dict). -/
def flmStStep (j2len : Nat → Nat) (blo bhi i : Nat) (st : FLMState)
    (j : Nat) : FLMState :=
  if j < blo then st
  else if bhi ≤ j then st
  else
    let k := (if j = 0 then 0 else j2len (j - 1)) + 1
    if st.bestsize < k then ⟨i + 1 - k, j + 1 - k, k⟩ else st

/-! Basic lemmas about `node_diff`. -/

theorem zero_one_indicator (c : Prop) [Decidable c] :
    (0 : ℚ) ≤ (if c then (0 : ℚ) else 1) ∧ (if c then (0 : ℚ) else 1) ≤ 1 := by
  split <;> norm_num

theorem ratio_of_le_bounds {a b : ℚ} (h0 : 0 ≤ a) (hab : a ≤ b) :
    0 ≤ a / b ∧ a / b ≤ 1 := by
  rcases eq_or_lt_of_le (h0.trans hab) with h | h
  · rw [← h]
    norm_num
  · exact ⟨div_nonneg h0 h.le, (div_le_one h).mpr hab⟩

theorem class_diff_bounds (s t : Finset String) :
    (0 : ℚ) ≤ 1 - ((s ∩ t).card : ℚ) / ((s ∪ t).card : ℚ) ∧
      1 - ((s ∩ t).card : ℚ) / ((s ∪ t).card : ℚ) ≤ 1 := by
  have hsub : ((s ∩ t).card : ℚ) ≤ ((s ∪ t).card : ℚ) := by
    exact_mod_cast Finset.card_le_card (Finset.inter_subset_union)
  have h := ratio_of_le_bounds (by positivity) hsub
  constructor <;> linarith [h.1, h.2]

theorem class_component_bounds (s t : Finset String) :
    (0 : ℚ) ≤ (if s ≠ ∅ ∨ t ≠ ∅ then
        1 - ((s ∩ t).card : ℚ) / ((s ∪ t).card : ℚ) else 0) ∧
      (if s ≠ ∅ ∨ t ≠ ∅ then
        1 - ((s ∩ t).card : ℚ) / ((s ∪ t).card : ℚ) else 0) ≤ 1 := by
  split
  · exact class_diff_bounds s t
  · norm_num

theorem child_component_bounds (x y : Nat) :
    (0 : ℚ) ≤ (if 0 < max x y then
        |(x : ℚ) - (y : ℚ)| / ((max x y : Nat) : ℚ) else 0) ∧
      (if 0 < max x y then
        |(x : ℚ) - (y : ℚ)| / ((max x y : Nat) : ℚ) else 0) ≤ 1 := by
  split
  · refine ratio_of_le_bounds (abs_nonneg _) ?_
    have hx : (x : ℚ) ≤ ((max x y : Nat) : ℚ) := by
      exact_mod_cast le_max_left x y
    have hy : (y : ℚ) ≤ ((max x y : Nat) : ℚ) := by
      exact_mod_cast le_max_right x y
    have h0x : (0 : ℚ) ≤ (x : ℚ) := by positivity
    have h0y : (0 : ℚ) ≤ (y : ℚ) := by positivity
    rw [abs_sub_le_iff]
    constructor <;> linarith
  · norm_num

theorem weighted_sum_bounds {t c i ch : ℚ}
    (ht : 0 ≤ t ∧ t ≤ 1) (hc : 0 ≤ c ∧ c ≤ 1)
    (hi : 0 ≤ i ∧ i ≤ 1) (hch : 0 ≤ ch ∧ ch ≤ 1) :
    0 ≤ t * TAG_WEIGHT + c * CLASS_WEIGHT + i * ID_WEIGHT +
        ch * CHILD_COUNT_WEIGHT ∧
      t * TAG_WEIGHT + c * CLASS_WEIGHT + i * ID_WEIGHT +
        ch * CHILD_COUNT_WEIGHT ≤ 1 := by
  simp only [TAG_WEIGHT, CLASS_WEIGHT, ID_WEIGHT, CHILD_COUNT_WEIGHT]
  constructor <;> nlinarith [ht.1, ht.2, hc.1, hc.2, hi.1, hi.2, hch.1, hch.2]

theorem node_diff_bounds (o n : NodeProfile) :
    0 ≤ node_diff o n ∧ node_diff o n ≤ 1 := by
  simp only [node_diff]
  exact weighted_sum_bounds (zero_one_indicator _)
    (class_component_bounds _ _) (zero_one_indicator _)
    (child_component_bounds _ _)

theorem node_diff_nonneg (o n : NodeProfile) : 0 ≤ node_diff o n :=
  (node_diff_bounds o n).1

theorem node_diff_le_one (o n : NodeProfile) : node_diff o n ≤ 1 :=
  (node_diff_bounds o n).2

theorem node_diff_self (p : NodeProfile) : node_diff p p = 0 := by
  by_cases hc : p.classes.toFinset = ∅
  · simp [node_diff, hc]
  · have hpos : ((p.classes.toFinset.card : ℚ)) ≠ 0 := by
      have h := Finset.card_pos.mpr (Finset.nonempty_iff_ne_empty.mpr hc)
      exact Nat.cast_ne_zero.mpr (Nat.pos_iff_ne_zero.mp h)
    simp [node_diff, hc, Finset.inter_self, Finset.union_self, div_self hpos]

/-- The class sets are all that `node_diff` reads from the `classes` field:
profiles with set-equal class lists are interchangeable on either side. -/
theorem node_diff_classes_toFinset_congr (o n : NodeProfile) (l : List String)
    (h : l.toFinset = o.classes.toFinset) :
    node_diff ⟨o.tag, o.id_attr, l, o.child_count⟩ n = node_diff o n ∧
      node_diff n ⟨o.tag, o.id_attr, l, o.child_count⟩ = node_diff n o := by
  constructor <;> simp only [node_diff, h]

/-- Positions of a profile in the one-element list holding it. -/
theorem b2j_singleton_self (p : NodeProfile) : b2j [p] p = [0] := by
  simp [b2j, isPopular, List.count_singleton, List.range_succ]

theorem b2j_singleton_ne (p q : NodeProfile) (h : p ≠ q) : b2j [q] p = [] := by
  simp [b2j, isPopular, List.range_succ, List.count_singleton, h, Ne.symm h]

/-- Aligning a one-element skeleton with itself yields a single Equal
region. -/
theorem opcodes_singleton_eq (p : NodeProfile) :
    get_opcodes [p] [p] = [⟨.equal, 0, 1, 0, 1⟩] := by
  simp [get_opcodes, get_matching_blocks, collapsePass, collapseStep, opStep, mbLoop, find_longest_match, flmDP,
    flmRow, extendLeft, extendRight, b2j_singleton_self, List.range'_one,
    List.insertionSort, List.orderedInsert]

/-- Aligning one-element skeletons with distinct profiles yields a single
Replace region: the aligner matches nothing. -/
theorem opcodes_singleton_ne (p q : NodeProfile) (h : p ≠ q) :
    get_opcodes [p] [q] = [⟨.replace, 0, 1, 0, 1⟩] := by
  simp [get_opcodes, get_matching_blocks, collapsePass, collapseStep, opStep, mbLoop, find_longest_match, flmDP,
    flmRow, extendLeft, extendRight, b2j_singleton_ne p q h, List.range'_one,
    List.insertionSort, List.orderedInsert, h]

/-- C6: `node_diff` returns exactly
`tagMismatch * 0.30 + classMismatch * 0.30 + idMismatch * 0.20 +
childMismatch * 0.20`, where `tagMismatch` is 1 iff the tags differ else 0,
`classMismatch` is 0 when both class sets are empty and otherwise
1 − |intersection| / |union| of the two class sets, `idMismatch` is 1 iff
the id strings differ else 0, and `childMismatch` is
|old.child_count − new.child_count| / max(old.child_count, new.child_count)
when that max is positive, else 0; and the result lies in [0, 1]. -/
theorem C6_node_distance (o n : NodeProfile) :
    node_diff o n =
      (if o.tag = n.tag then 0 else 1) * 0.30 +
        (if o.classes.toFinset = ∅ ∧ n.classes.toFinset = ∅ then 0
          else 1 - ((o.classes.toFinset ∩ n.classes.toFinset).card : ℚ) /
            ((o.classes.toFinset ∪ n.classes.toFinset).card : ℚ)) * 0.30 +
        (if o.id_attr = n.id_attr then 0 else 1) * 0.20 +
        (if 0 < max o.child_count n.child_count then
          |(o.child_count : ℚ) - (n.child_count : ℚ)| /
            ((max o.child_count n.child_count : Nat) : ℚ)
          else 0) * 0.20 ∧
      0 ≤ node_diff o n ∧ node_diff o n ≤ 1 := by
  refine ⟨?_, node_diff_nonneg o n, node_diff_le_one o n⟩
  simp only [node_diff, TAG_WEIGHT, CLASS_WEIGHT, ID_WEIGHT, CHILD_COUNT_WEIGHT]
  by_cases h : o.classes.toFinset = ∅ ∧ n.classes.toFinset = ∅
  · rw [if_neg (show ¬(o.classes.toFinset ≠ ∅ ∨ n.classes.toFinset ≠ ∅) by
      tauto), if_pos h]
  · rw [if_pos (show o.classes.toFinset ≠ ∅ ∨ n.classes.toFinset ≠ ∅ by
      tauto), if_neg h]

/-- C6 witness: the theorem at a concrete pair of profiles (class sets
\x7b a, b \x7d vs \x7b b, c \x7d, ids differing, child counts 1 vs 3). -/
theorem C6_node_distance_witness :
    node_diff ⟨"div", "x", ["a", "b"], 1⟩ ⟨"div", "y", ["b", "c"], 3⟩ =
      (0 : ℚ) * 0.30 + (1 - (1 : ℚ) / 3) * 0.30 + 1 * 0.20 +
        ((2 : ℚ) / 3) * 0.20 := by
  have h := (C6_node_distance ⟨"div", "x", ["a", "b"], 1⟩
    ⟨"div", "y", ["b", "c"], 3⟩).1
  rw [h]
  rw [if_pos rfl, if_neg (by decide), if_neg (by decide), if_pos (by decide)]
  rw [show ((⟨"div", "x", ["a", "b"], 1⟩ : NodeProfile).classes.toFinset ∩
      (⟨"div", "y", ["b", "c"], 3⟩ : NodeProfile).classes.toFinset).card = 1 from by
    decide]
  rw [show ((⟨"div", "x", ["a", "b"], 1⟩ : NodeProfile).classes.toFinset ∪
      (⟨"div", "y", ["b", "c"], 3⟩ : NodeProfile).classes.toFinset).card = 3 from by
    decide]
  norm_num

/-- C7: `skeleton_diff` is total (defined on all inputs, in particular empty
ones); two empty skeletons score exactly 0 and exactly one empty skeleton
scores exactly 1. -/
theorem C7_skeleton_diff_degraded (ps : List NodeProfile) (hps : ps ≠ []) :
    skeleton_diff [] [] = 0 ∧ skeleton_diff [] ps = 1 ∧
      skeleton_diff ps [] = 1 := by
  refine ⟨?_, ?_, ?_⟩
  · unfold skeleton_diff
    rw [if_pos ⟨rfl, rfl⟩]
  · unfold skeleton_diff
    rw [if_neg (fun h => hps h.2), if_pos (Or.inl rfl)]
  · unfold skeleton_diff
    rw [if_neg (fun h => hps h.1), if_pos (Or.inr rfl)]

/-- C7 witness: the degraded cases at a concrete one-element skeleton. -/
theorem C7_skeleton_diff_degraded_witness :
    skeleton_diff [] [⟨"div", "", [], 0⟩] = 1 ∧
      skeleton_diff [⟨"div", "", [], 0⟩] [] = 1 :=
  ⟨(C7_skeleton_diff_degraded [⟨"div", "", [], 0⟩] (by simp)).2.1,
   (C7_skeleton_diff_degraded [⟨"div", "", [], 0⟩] (by simp)).2.2⟩

/-- C9: `node_diff` reads the classes only through their underlying sets:
replacing either profile's class tuple by any list with the same set of
tokens (in particular any permutation or duplication of its entries) leaves
`node_diff` unchanged on both sides, and `node_diff` of a profile with
itself is exactly 0. -/
theorem C9_node_diff_class_insensitive (o n : NodeProfile) (l : List String)
    (h : l.toFinset = o.classes.toFinset) :
    node_diff ⟨o.tag, o.id_attr, l, o.child_count⟩ n = node_diff o n ∧
      node_diff n ⟨o.tag, o.id_attr, l, o.child_count⟩ = node_diff n o ∧
      node_diff o o = 0 :=
  ⟨(node_diff_classes_toFinset_congr o n l h).1,
   (node_diff_classes_toFinset_congr o n l h).2,
   node_diff_self o⟩

/-- C9 witness: permuting and duplicating the class tokens of a concrete
profile leaves node_diff unchanged, and its self-distance is 0. -/
theorem C9_node_diff_class_insensitive_witness :
    node_diff ⟨"div", "x", ["b", "a", "a"], 1⟩ ⟨"p", "y", ["c"], 2⟩ =
        node_diff ⟨"div", "x", ["a", "b"], 1⟩ ⟨"p", "y", ["c"], 2⟩ ∧
      node_diff ⟨"p", "y", ["c"], 2⟩ ⟨"div", "x", ["b", "a", "a"], 1⟩ =
        node_diff ⟨"p", "y", ["c"], 2⟩ ⟨"div", "x", ["a", "b"], 1⟩ ∧
      node_diff ⟨"div", "x", ["a", "b"], 1⟩ ⟨"div", "x", ["a", "b"], 1⟩ = 0 :=
  C9_node_diff_class_insensitive ⟨"div", "x", ["a", "b"], 1⟩
    ⟨"p", "y", ["c"], 2⟩ ["b", "a", "a"] (by decide)

/-- C3 counterexample: the interpretation strings in the code are
capitalized; at score 1/2 the function returns
"Major structural rewrite detected", not the claimed all-lowercase
"major structural rewrite detected" (and similarly for the other labels). -/
theorem C3_counterexample :
    interpret_score (1 / 2) = "Major structural rewrite detected" ∧
      interpret_score (1 / 2) ≠ "major structural rewrite detected" := by
  have h : interpret_score (1 / 2) = "Major structural rewrite detected" := by
    simp only [interpret_score]
    rw [if_pos (by norm_num)]
  exact ⟨h, by rw [h]; decide⟩

/-- C3 amended: the combined score is
`landmark_diff * 0.40 + skeleton_diff * 0.60`, and the interpretation
function, first match wins, returns "Major structural rewrite detected"
for score > 0.40, "Significant layout modifications detected" for
score > 0.15 (and not > 0.40), and "Minor structural changes" otherwise —
the strings carry a capitalized first word, unlike the claim's lowercase
quotations. -/
theorem C3_combiner_and_labels (s : ℚ) (oldDoc newDoc : HDoc) :
    diff_score oldDoc newDoc =
      landmark_diff (extract_landmarks oldDoc) (extract_landmarks newDoc)
          * 0.40 +
        skeleton_diff (extract_skeleton oldDoc) (extract_skeleton newDoc)
          * 0.60 ∧
      (0.40 < s → interpret_score s = "Major structural rewrite detected") ∧
      (¬ 0.40 < s → 0.15 < s →
        interpret_score s = "Significant layout modifications detected") ∧
      (¬ 0.40 < s → ¬ 0.15 < s →
        interpret_score s = "Minor structural changes") := by
  refine ⟨rfl, ?_, ?_, ?_⟩
  · intro h
    simp only [interpret_score]
    rw [if_pos h]
  · intro h1 h2
    simp only [interpret_score]
    rw [if_neg h1, if_pos h2]
  · intro h1 h2
    simp only [interpret_score]
    rw [if_neg h1, if_neg h2]

/-- C3 witness: the amended theorem applied at scores 1/2, 1/4 and 1/10
and at a pair of concrete (empty) documents. -/
theorem C3_combiner_and_labels_witness :
    interpret_score (1 / 2) = "Major structural rewrite detected" ∧
      interpret_score (1 / 4) = "Significant layout modifications detected" ∧
      interpret_score (1 / 10) = "Minor structural changes" ∧
      diff_score [] [] =
        landmark_diff (extract_landmarks []) (extract_landmarks []) * 0.40 +
          skeleton_diff (extract_skeleton []) (extract_skeleton []) * 0.60 :=
  ⟨(C3_combiner_and_labels (1 / 2) [] []).2.1 (by norm_num),
   (C3_combiner_and_labels (1 / 4) [] []).2.2.1 (by norm_num) (by norm_num),
   (C3_combiner_and_labels (1 / 10) [] []).2.2.2 (by norm_num) (by norm_num),
   (C3_combiner_and_labels 0 [] []).1⟩

/-- C8 counterexample: two profiles whose class tuples hold the same tokens
in a different order agree on all four fields in the set sense, yet are
unequal for the program (the frozen dataclass compares `classes` as a
tuple), and the aligner forms no Equal region from them: aligning the two
one-element skeletons yields a single `replace` opcode. -/
theorem C8_counterexample :
    (⟨"div", "", ["a", "b"], 0⟩ : NodeProfile) ≠ ⟨"div", "", ["b", "a"], 0⟩ ∧
      (⟨"div", "", ["a", "b"], 0⟩ : NodeProfile).classes.toFinset =
        (⟨"div", "", ["b", "a"], 0⟩ : NodeProfile).classes.toFinset ∧
      get_opcodes [(⟨"div", "", ["a", "b"], 0⟩ : NodeProfile)]
          [⟨"div", "", ["b", "a"], 0⟩] =
        [⟨.replace, 0, 1, 0, 1⟩] := by
  refine ⟨by decide, by decide, by decide⟩

/-- C8 amended: the equality used by the program (the structural equality of
the frozen dataclass, under which the aligner forms Equal regions) holds
iff the tag, id and child count match and the classes match as ordered
tuples — token order and multiplicity included; and on one-element
skeletons the aligner emits an Equal region exactly for equal profiles. -/
theorem C8_profile_equality (p q : NodeProfile) :
    (p = q ↔ p.tag = q.tag ∧ p.id_attr = q.id_attr ∧
      p.classes = q.classes ∧ p.child_count = q.child_count) ∧
      (get_opcodes [p] [q] = [⟨.equal, 0, 1, 0, 1⟩] ↔ p = q) := by
  constructor
  · constructor
    · rintro rfl
      exact ⟨rfl, rfl, rfl, rfl⟩
    · rintro ⟨h1, h2, h3, h4⟩
      cases p
      cases q
      simp_all
  · constructor
    · intro hops
      by_contra hne
      rw [opcodes_singleton_ne p q hne] at hops
      simp at hops
    · rintro rfl
      exact opcodes_singleton_eq p

/-! Invariants of `find_longest_match`: its result lies in the requested
window. -/

theorem foldl_inv {β σ : Type} (P : σ → Prop) (f : σ → β → σ) (l : List β)
    (init : σ) (h0 : P init) (hstep : ∀ s x, x ∈ l → P s → P (f s x)) :
    P (l.foldl f init) := by
  induction l generalizing init with
  | nil => exact h0
  | cons y ys ih =>
    exact ih _ (hstep _ _ (List.mem_cons_self y ys) h0)
      (fun s x hx hs => hstep s x (List.mem_cons_of_mem y hx) hs)

/-- Row invariant of the DP loop: every dict entry records a run length
that fits in the window left of the current row, and the running best
block stays inside the window. -/
theorem flmRow_invariant {alo ahi blo bhi i : Nat} (f : Nat → Nat)
    (idxs : List Nat) (st : FLMState)
    (hi1 : alo ≤ i) (hi2 : i < ahi)
    (hf : ∀ m, f m = 0 ∨ (f m + alo ≤ i ∧ f m + blo ≤ m + 1))
    (hst : InRect alo ahi blo bhi st) :
    (∀ m, (flmRow f blo bhi i idxs st).1 m = 0 ∨
        ((flmRow f blo bhi i idxs st).1 m + alo ≤ i + 1 ∧
          (flmRow f blo bhi i idxs st).1 m + blo ≤ m + 1)) ∧
      InRect alo ahi blo bhi (flmRow f blo bhi i idxs st).2 := by
  unfold flmRow
  refine foldl_inv (fun acc : (Nat → Nat) × FLMState =>
    (∀ m, acc.1 m = 0 ∨ (acc.1 m + alo ≤ i + 1 ∧ acc.1 m + blo ≤ m + 1)) ∧
      InRect alo ahi blo bhi acc.2) _ idxs _ ⟨fun m => Or.inl rfl, hst⟩ ?_
  rintro ⟨g, st1⟩ j - ⟨hg, hst1⟩
  dsimp only
  split
  · exact ⟨hg, hst1⟩
  rename_i hblo
  split
  · exact ⟨hg, hst1⟩
  rename_i hbhi
  have hjblo : blo ≤ j := by omega
  have hjbhi : j < bhi := by omega
  have hk1 : (if j = 0 then 0 else f (j - 1)) + 1 + alo ≤ i + 1 := by
    split
    · omega
    · rcases hf (j - 1) with h | h <;> omega
  have hk2 : (if j = 0 then 0 else f (j - 1)) + 1 + blo ≤ j + 1 := by
    split
    · omega
    · rcases hf (j - 1) with h | h <;> omega
  constructor
  · intro m
    dsimp only
    by_cases hm : m = j
    · rw [if_pos hm]
      subst hm
      right
      exact ⟨hk1, hk2⟩
    · rw [if_neg hm]
      exact hg m
  · dsimp only
    by_cases hrec : st1.bestsize < (if j = 0 then 0 else f (j - 1)) + 1
    · rw [if_pos hrec]
      refine ⟨?_, ?_, ?_, ?_⟩ <;> dsimp only <;> omega
    · rw [if_neg hrec]
      exact hst1

theorem flmDP_rows_invariant {α : Type} [DecidableEq α] (a b : List α)
    (alo ahi blo bhi : Nat) :
    ∀ (n s : Nat) (f : Nat → Nat) (st : FLMState),
      alo ≤ s → s + n ≤ ahi →
      (∀ m, f m = 0 ∨ (f m + alo ≤ s ∧ f m + blo ≤ m + 1)) →
      InRect alo ahi blo bhi st →
      InRect alo ahi blo bhi
        (((List.range' s n).foldl
          (fun acc i => flmRow acc.1 blo bhi i ((a[i]?).elim [] (b2j b)) acc.2)
          (f, st)).2) := by
  intro n
  induction n with
  | zero =>
    intro s f st _ _ _ hst
    simpa using hst
  | succ n ih =>
    intro s f st hs hsn hf hst
    rw [List.range'_succ]
    simp only [List.foldl_cons]
    have hrow := flmRow_invariant f ((a[s]?).elim [] (b2j b)) st hs
      (by omega) hf hst
    exact ih (s + 1) _ _ (by omega) (by omega) hrow.1 hrow.2

theorem flmDP_inrect {α : Type} [DecidableEq α] (a b : List α)
    {alo ahi blo bhi : Nat} (h1 : alo ≤ ahi) (h2 : blo ≤ bhi) :
    InRect alo ahi blo bhi (flmDP a b alo ahi blo bhi) := by
  unfold flmDP
  exact flmDP_rows_invariant a b alo ahi blo bhi (ahi - alo) alo
    (fun _ => 0) ⟨alo, blo, 0⟩ le_rfl (by omega) (fun m => Or.inl rfl)
    ⟨le_rfl, by simpa using h1, le_rfl, by simpa using h2⟩

theorem extendLeft_inrect {α : Type} [DecidableEq α] (a b : List α)
    (alo blo : Nat) {ahi bhi : Nat} :
    ∀ (fuel : Nat) (st : FLMState), InRect alo ahi blo bhi st →
      InRect alo ahi blo bhi (extendLeft a b alo blo fuel st)
  | 0, st, h => h
  | fuel + 1, st, h => by
    unfold extendLeft
    split
    · rename_i hc
      obtain ⟨h1, h2, h3, h4⟩ := h
      refine extendLeft_inrect a b alo blo fuel _ ⟨?_, ?_, ?_, ?_⟩ <;>
        dsimp only <;> omega
    · exact h

theorem extendRight_inrect {α : Type} [DecidableEq α] (a b : List α)
    (ahi bhi : Nat) {alo blo : Nat} :
    ∀ (fuel : Nat) (st : FLMState), InRect alo ahi blo bhi st →
      InRect alo ahi blo bhi (extendRight a b ahi bhi fuel st)
  | 0, st, h => h
  | fuel + 1, st, h => by
    unfold extendRight
    split
    · rename_i hc
      obtain ⟨h1, h2, h3, h4⟩ := h
      refine extendRight_inrect a b ahi bhi fuel _ ⟨?_, ?_, ?_, ?_⟩ <;>
        dsimp only <;> omega
    · exact h

/-- The block returned by `find_longest_match` lies inside the requested
window. -/
theorem find_longest_match_inrect {α : Type} [DecidableEq α] (a b : List α)
    {alo ahi blo bhi : Nat} (h1 : alo ≤ ahi) (h2 : blo ≤ bhi) :
    alo ≤ (find_longest_match a b alo ahi blo bhi).ai ∧
      (find_longest_match a b alo ahi blo bhi).ai +
        (find_longest_match a b alo ahi blo bhi).size ≤ ahi ∧
      blo ≤ (find_longest_match a b alo ahi blo bhi).bj ∧
      (find_longest_match a b alo ahi blo bhi).bj +
        (find_longest_match a b alo ahi blo bhi).size ≤ bhi := by
  unfold find_longest_match
  exact extendRight_inrect a b ahi bhi _ _
    (extendLeft_inrect a b alo blo _ _ (flmDP_inrect a b h1 h2))

/-! Invariants of the `get_matching_blocks` queue loop: the collected
blocks are in bounds, of nonzero size and pairwise compatible. -/

theorem rectSize_pos (r : Rect) : 1 ≤ rectSize r := by
  unfold rectSize
  omega

theorem queueMeasure_nil : queueMeasure [] = 0 := rfl

theorem queueMeasure_cons (r : Rect) (q : List Rect) :
    queueMeasure (r :: q) = rectSize r + queueMeasure q := by
  simp [queueMeasure]

theorem queueMeasure_append (q1 q2 : List Rect) :
    queueMeasure (q1 ++ q2) = queueMeasure q1 + queueMeasure q2 := by
  simp [queueMeasure]

theorem mem_ite_singleton {γ : Type} {c : Prop} [Decidable c] {x y : γ}
    (h : y ∈ if c then [x] else []) : c ∧ y = x := by
  by_cases hc : c
  · rw [if_pos hc] at h
    simp at h
    exact ⟨hc, h⟩
  · rw [if_neg hc] at h
    simp at h

theorem subRect_rectComp {r s t : Rect} (hsub : SubRect r s)
    (h : RectComp s t) : RectComp r t := by
  unfold SubRect RectComp RectSW at *
  omega

theorem subRect_blockRectComp {m : Match3} {r s : Rect} (hsub : SubRect r s)
    (h : BlockRectComp m s) : BlockRectComp m r := by
  unfold SubRect BlockRectComp at *
  omega

theorem mbLoop_blocks {α : Type} [DecidableEq α] (a b : List α) :
    ∀ (fuel : Nat) (q : List Rect) (acc : List Match3),
      queueMeasure q ≤ fuel →
      (∀ r ∈ q, RectOk a.length b.length r) →
      q.Pairwise RectComp →
      (∀ m ∈ acc, BlockOk a.length b.length m) →
      acc.Pairwise BlockComp →
      (∀ m ∈ acc, ∀ r ∈ q, BlockRectComp m r) →
      (∀ m ∈ mbLoop a b fuel q acc, BlockOk a.length b.length m) ∧
        (mbLoop a b fuel q acc).Pairwise BlockComp := by
  intro fuel
  induction fuel with
  | zero =>
    intro q acc hm hq hqp hacc haccp hcross
    exact ⟨fun m hmem => hacc m (by simpa [mbLoop] using hmem),
      by simpa [mbLoop] using haccp⟩
  | succ fuel ih =>
    intro q acc hm hq hqp hacc haccp hcross
    cases q with
    | nil =>
      exact ⟨fun m hmem => hacc m (by simpa [mbLoop] using hmem),
        by simpa [mbLoop] using haccp⟩
    | cons r rest =>
      have hr : RectOk a.length b.length r := hq r (List.mem_cons_self r rest)
      obtain ⟨hr1, hr2, hr3, hr4⟩ := hr
      have hx := find_longest_match_inrect a b hr1 hr3
      obtain ⟨hx1, hx2, hx3, hx4⟩ := hx
      rw [queueMeasure_cons] at hm
      have hrs := rectSize_pos r
      simp only [mbLoop]
      by_cases hx0 : (find_longest_match a b r.alo r.ahi r.blo r.bhi).size = 0
      · rw [if_pos hx0]
        refine ih rest acc (by omega) (fun s hs => hq s (List.mem_cons_of_mem r hs))
          (List.Pairwise.of_cons hqp) hacc haccp
          (fun m hmm s hs => hcross m hmm s (List.mem_cons_of_mem r hs))
      · rw [if_neg hx0]
        set x := find_longest_match a b r.alo r.ahi r.blo r.bhi with hxdef
        have hxs : 1 ≤ x.size := by omega
        set qL : List Rect :=
          if r.alo < x.ai ∧ r.blo < x.bj then [⟨r.alo, x.ai, r.blo, x.bj⟩]
          else [] with hqL
        set qR : List Rect :=
          if x.ai + x.size < r.ahi ∧ x.bj + x.size < r.bhi then
            [⟨x.ai + x.size, r.ahi, x.bj + x.size, r.bhi⟩]
          else [] with hqR
        have hsubL : ∀ s ∈ qL, SubRect s r ∧ s.ahi = x.ai ∧ s.bhi = x.bj ∧
            s.alo = r.alo ∧ s.blo = r.blo := by
          intro s hs
          obtain ⟨hc, rfl⟩ := mem_ite_singleton (hqL ▸ hs)
          refine ⟨⟨?_, ?_, ?_, ?_⟩, rfl, rfl, rfl, rfl⟩ <;> dsimp only <;> omega
        have hsubR : ∀ s ∈ qR, SubRect s r ∧ s.alo = x.ai + x.size ∧
            s.blo = x.bj + x.size ∧ s.ahi = r.ahi ∧ s.bhi = r.bhi := by
          intro s hs
          obtain ⟨hc, rfl⟩ := mem_ite_singleton (hqR ▸ hs)
          refine ⟨⟨?_, ?_, ?_, ?_⟩, rfl, rfl, rfl, rfl⟩ <;> dsimp only <;> omega
        have hmeas : queueMeasure (qR ++ qL ++ rest) ≤ fuel := by
          rw [queueMeasure_append, queueMeasure_append]
          have hL : queueMeasure qL ≤ (x.ai - r.alo) + (x.bj - r.blo) + 1 := by
            rw [hqL]
            split
            · simp [queueMeasure, rectSize]
            · simp [queueMeasure]
          have hR : queueMeasure qR ≤
              (r.ahi - (x.ai + x.size)) + (r.bhi - (x.bj + x.size)) + 1 := by
            rw [hqR]
            split
            · simp [queueMeasure, rectSize]
            · simp [queueMeasure]
          have hLR : queueMeasure qL + queueMeasure qR + 1 ≤ rectSize r := by
            rw [hqL, hqR]
            by_cases c1 : r.alo < x.ai ∧ r.blo < x.bj <;>
              by_cases c2 : x.ai + x.size < r.ahi ∧ x.bj + x.size < r.bhi <;>
              simp [c1, c2, queueMeasure, rectSize] <;> omega
          omega
        have hqok : ∀ s ∈ qR ++ qL ++ rest, RectOk a.length b.length s := by
          intro s hs
          rcases List.mem_append.mp hs with hs | hs
          rotate_left
          · exact hq s (List.mem_cons_of_mem r hs)
          rcases List.mem_append.mp hs with hs | hs
          · obtain ⟨hsub, _, _, _, _⟩ := hsubR s hs
            obtain ⟨s1, s2, s3, s4⟩ := hsub
            exact ⟨by omega, by omega, by omega, by omega⟩
          · obtain ⟨hsub, hL1, hL2, _, _⟩ := hsubL s hs
            obtain ⟨s1, s2, s3, s4⟩ := hsub
            exact ⟨by omega, by omega, by omega, by omega⟩
        have hrestcomp : ∀ s ∈ rest, RectComp r s :=
          fun s hs => (List.pairwise_cons.mp hqp).1 s hs
        have hqpair : (qR ++ qL ++ rest).Pairwise RectComp := by
          rw [List.pairwise_append, List.pairwise_append]
          refine ⟨⟨?_, ?_, ?_⟩, ?_, ?_⟩
          · rw [hqR]
            split <;> simp
          · rw [hqL]
            split <;> simp
          · intro u hu v hv
            obtain ⟨hsubU, hU1, hU2, _, _⟩ := hsubR u hu
            obtain ⟨hsubV, hV1, hV2, _, _⟩ := hsubL v hv
            right
            exact ⟨by omega, by omega⟩
          · exact List.Pairwise.of_cons hqp
          · intro u hu v hv
            rcases List.mem_append.mp hu with hu | hu
            · exact subRect_rectComp (hsubR u hu).1 (hrestcomp v hv)
            · exact subRect_rectComp (hsubL u hu).1 (hrestcomp v hv)
        have haccok2 : ∀ m ∈ acc ++ [x], BlockOk a.length b.length m := by
          intro m hmm
          rcases List.mem_append.mp hmm with hmm | hmm
          · exact hacc m hmm
          · rw [List.mem_singleton.mp hmm]
            exact ⟨by omega, by omega, hxs⟩
        have hbb : ∀ m ∈ acc, BlockComp m x := by
          intro m hmm
          rcases hcross m hmm r (List.mem_cons_self r rest) with h | h
          · exact Or.inl ⟨by omega, by omega⟩
          · exact Or.inr ⟨by omega, by omega⟩
        have haccp2 : (acc ++ [x]).Pairwise BlockComp := by
          rw [List.pairwise_append]
          exact ⟨haccp, List.pairwise_singleton _ _,
            fun m hmm y hy => (List.mem_singleton.mp hy) ▸ hbb m hmm⟩
        have hcross2 : ∀ m ∈ acc ++ [x], ∀ s ∈ qR ++ qL ++ rest,
            BlockRectComp m s := by
          intro m hmm s hs
          rcases List.mem_append.mp hmm with hmm | hmm
          · rcases List.mem_append.mp hs with hs | hs
            rotate_left
            · exact hcross m hmm s (List.mem_cons_of_mem r hs)
            rcases List.mem_append.mp hs with hs | hs
            · exact subRect_blockRectComp (hsubR s hs).1
                (hcross m hmm r (List.mem_cons_self r rest))
            · exact subRect_blockRectComp (hsubL s hs).1
                (hcross m hmm r (List.mem_cons_self r rest))
          · rw [List.mem_singleton.mp hmm]
            rcases List.mem_append.mp hs with hs | hs
            rotate_left
            · rcases hrestcomp s hs with h | h
              · obtain ⟨h1, h2⟩ := h
                exact Or.inl ⟨by omega, by omega⟩
              · obtain ⟨h1, h2⟩ := h
                exact Or.inr ⟨by omega, by omega⟩
            rcases List.mem_append.mp hs with hs | hs
            · obtain ⟨_, hS1, hS2, _, _⟩ := hsubR s hs
              exact Or.inl ⟨by omega, by omega⟩
            · obtain ⟨_, _, _, hS1, hS2⟩ := hsubL s hs
              have hx' := hsubL s hs
              exact Or.inr ⟨by omega, by omega⟩
        exact ih (qR ++ qL ++ rest) (acc ++ [x]) hmeas hqok hqpair haccok2
          haccp2 hcross2

/-! Sorting, collapsing and opcode generation: the partition property. -/

instance : IsTotal Match3 blockLe :=
  ⟨fun x y => by unfold blockLe; omega⟩

instance : IsTrans Match3 blockLe :=
  ⟨fun x y z hxy hyz => by unfold blockLe at *; omega⟩

/-- Sorted, pairwise-compatible blocks of nonzero size are pairwise in
strict southwest order. -/
theorem pairwise_blockSW_of_sorted :
    ∀ l : List Match3, (∀ m ∈ l, 1 ≤ m.size) →
      l.Pairwise blockLe → l.Pairwise BlockComp → l.Pairwise BlockSW := by
  intro l
  induction l with
  | nil =>
    intro _ _ _
    exact List.Pairwise.nil
  | cons m ms ih =>
    intro hsz hle hcomp
    rw [List.pairwise_cons] at hle hcomp ⊢
    refine ⟨?_, ih (fun y hy => hsz y (List.mem_cons_of_mem m hy)) hle.2
      hcomp.2⟩
    intro y hy
    have h1 := hle.1 y hy
    have h2 := hcomp.1 y hy
    have h3 := hsz y (List.mem_cons_of_mem m hy)
    unfold blockLe at h1
    unfold BlockComp at h2
    unfold BlockSW at h2 ⊢
    omega

theorem chainTo_append (l1 l2 : List Match3) :
    ∀ (i j : Nat) (e : Nat × Nat),
      (ChainTo i j (l1 ++ l2) e ↔
        ∃ mid : Nat × Nat, ChainTo i j l1 mid ∧ ChainTo mid.1 mid.2 l2 e) := by
  induction l1 with
  | nil =>
    intro i j e
    simp [ChainTo]
  | cons m ms ih =>
    intro i j e
    simp only [List.cons_append, ChainTo, List.append_eq, ih]
    constructor
    · rintro ⟨hA, hB, mid, hP, hQ⟩
      exact ⟨mid, ⟨hA, hB, hP⟩, hQ⟩
    · rintro ⟨mid, ⟨hA, hB, hP⟩, hQ⟩
      exact ⟨hA, hB, mid, hP, hQ⟩

theorem chainTo_singleton (m : Match3) (i j : Nat) (e : Nat × Nat) :
    ChainTo i j [m] e ↔
      i ≤ m.ai ∧ j ≤ m.bj ∧ e = (m.ai + m.size, m.bj + m.size) := by
  simp [ChainTo, eq_comm]

theorem blockSizeSum_append (l1 l2 : List Match3) :
    blockSizeSum (l1 ++ l2) = blockSizeSum l1 + blockSizeSum l2 := by
  simp [blockSizeSum]

theorem blockSizeSum_cons (m : Match3) (l : List Match3) :
    blockSizeSum (m :: l) = m.size + blockSizeSum l := by
  simp [blockSizeSum]

theorem blockSizeSum_singleton (m : Match3) :
    blockSizeSum [m] = m.size := by
  simp [blockSizeSum]

theorem collapseStep_apply (acc : Match3 × List Match3) (blk : Match3) :
    collapseStep acc blk =
      if acc.1.ai + acc.1.size = blk.ai ∧ acc.1.bj + acc.1.size = blk.bj then
        (⟨acc.1.ai, acc.1.bj, acc.1.size + blk.size⟩, acc.2)
      else (blk, acc.2 ++ if acc.1.size = 0 then [] else [acc.1]) := rfl

/-- The collapsing fold keeps the blocks chained: given southwest-ordered
in-bound input blocks and a pending block southwest of all of them, the
final output (with the pending block flushed and the sentinel appended)
is a chain from the origin to `(la, lb)` whose sizes sum to the input's
total plus what was already accumulated. -/
theorem collapse_fold_chain (la lb : Nat) :
    ∀ (bs : List Match3) (cur : Match3) (out : List Match3),
      (∀ m ∈ bs, BlockOk la lb m) →
      bs.Pairwise BlockSW →
      (∀ m ∈ bs, BlockSW cur m) →
      ChainTo 0 0 (out ++ [cur]) (cur.ai + cur.size, cur.bj + cur.size) →
      cur.ai + cur.size ≤ la → cur.bj + cur.size ≤ lb →
      (cur.size = 0 → cur = ⟨0, 0, 0⟩ ∧ out = []) →
      ChainTo 0 0
        ((((bs.foldl collapseStep (cur, out)).2 ++
            if (bs.foldl collapseStep (cur, out)).1.size = 0 then []
            else [(bs.foldl collapseStep (cur, out)).1]) ++
          [⟨la, lb, 0⟩]))
        (la, lb) ∧
      blockSizeSum (bs.foldl collapseStep (cur, out)).2 +
          (bs.foldl collapseStep (cur, out)).1.size =
        blockSizeSum bs + (blockSizeSum out + cur.size) := by
  intro bs
  induction bs with
  | nil =>
    intro cur out _ _ _ hchain hba hbb hzero
    simp only [List.foldl_nil]
    constructor
    · by_cases h0 : cur.size = 0
      · obtain ⟨hc, ho⟩ := hzero h0
        subst hc ho
        rw [if_pos h0]
        simp only [List.nil_append]
        exact (chainTo_singleton _ 0 0 (la, lb)).mpr
          ⟨Nat.zero_le la, Nat.zero_le lb, by simp⟩
      · rw [if_neg h0]
        rw [chainTo_append]
        refine ⟨(cur.ai + cur.size, cur.bj + cur.size), hchain, ?_⟩
        exact (chainTo_singleton _ _ _ _).mpr ⟨hba, hbb, by simp⟩
    · simp [blockSizeSum]
  | cons blk rest ih =>
    intro cur out hok hsw hswcur hchain hba hbb hzero
    have hokb := hok blk (List.mem_cons_self blk rest)
    obtain ⟨hb1, hb2, hb3⟩ := hokb
    have hswb := hswcur blk (List.mem_cons_self blk rest)
    obtain ⟨hswb1, hswb2⟩ := hswb
    have hswrest : ∀ m ∈ rest, BlockSW blk m :=
      fun m hm => (List.pairwise_cons.mp hsw).1 m hm
    simp only [List.foldl_cons]
    rw [collapseStep_apply]
    dsimp only
    by_cases hadj : cur.ai + cur.size = blk.ai ∧ cur.bj + cur.size = blk.bj
    · rw [if_pos hadj]
      have hmerge := ih ⟨cur.ai, cur.bj, cur.size + blk.size⟩ out
        (fun m hm => hok m (List.mem_cons_of_mem blk hm))
        (List.Pairwise.of_cons hsw)
        (fun m hm => by
          have h := hswrest m hm
          unfold BlockSW at h ⊢
          dsimp only at *
          omega)
        (by
          rw [chainTo_append] at hchain ⊢
          obtain ⟨mid, hmid1, hmid2⟩ := hchain
          rw [chainTo_singleton] at hmid2
          refine ⟨mid, hmid1, ?_⟩
          rw [chainTo_singleton]
          dsimp only
          exact ⟨hmid2.1, hmid2.2.1, rfl⟩)
        (by dsimp only; omega) (by dsimp only; omega)
        (by dsimp only; intro h; omega)
      refine ⟨hmerge.1, ?_⟩
      have h2 := hmerge.2
      rw [blockSizeSum_cons]
      dsimp only at h2 ⊢
      omega
    · rw [if_neg hadj]
      by_cases h0 : cur.size = 0
      · obtain ⟨hc, ho⟩ := hzero h0
        subst hc ho
        rw [if_pos rfl]
        have hstep := ih blk ([] ++ [])
          (fun m hm => hok m (List.mem_cons_of_mem blk hm))
          (List.Pairwise.of_cons hsw) hswrest
          (by
            simp only [List.nil_append, List.append_nil]
            exact (chainTo_singleton _ _ _ _).mpr
              ⟨Nat.zero_le _, Nat.zero_le _, rfl⟩)
          hb1 hb2 (fun h => absurd h (by omega))
        refine ⟨hstep.1, ?_⟩
        have h2 := hstep.2
        rw [blockSizeSum_cons]
        have h3 : blockSizeSum (([] : List Match3) ++ []) = 0 := rfl
        have h4 : blockSizeSum ([] : List Match3) = 0 := rfl
        dsimp only at h2 ⊢
        omega
      · rw [if_neg h0]
        have hstep := ih blk (out ++ [cur])
          (fun m hm => hok m (List.mem_cons_of_mem blk hm))
          (List.Pairwise.of_cons hsw) hswrest
          (by
            rw [chainTo_append]
            exact ⟨(cur.ai + cur.size, cur.bj + cur.size), hchain,
              (chainTo_singleton _ _ _ _).mpr ⟨hswb1, hswb2, by simp⟩⟩)
          hb1 hb2 (fun h => absurd h (by omega))
        refine ⟨hstep.1, ?_⟩
        have h2 := hstep.2
        rw [blockSizeSum_cons]
        rw [blockSizeSum_append, blockSizeSum_singleton] at h2
        omega

/-- The matching blocks of any two sequences form a chain from the origin
to `(len a, len b)`. -/
theorem get_matching_blocks_chain {α : Type} [DecidableEq α]
    (a b : List α) :
    ChainTo 0 0 (get_matching_blocks a b) (a.length, b.length) := by
  unfold get_matching_blocks collapsePass
  have hraw := mbLoop_blocks a b (a.length + b.length + 1)
    [⟨0, a.length, 0, b.length⟩] []
    (by simp [queueMeasure, rectSize])
    (by
      intro r hr
      rw [List.mem_singleton] at hr
      subst hr
      exact ⟨Nat.zero_le _, le_rfl, Nat.zero_le _, le_rfl⟩)
    (List.pairwise_singleton _ _) (by simp) List.Pairwise.nil (by simp)
  set raw := mbLoop a b (a.length + b.length + 1)
    [⟨0, a.length, 0, b.length⟩] [] with hrawdef
  have hperm : (raw.insertionSort blockLe).Perm raw :=
    List.perm_insertionSort blockLe raw
  have hsortok : ∀ m ∈ raw.insertionSort blockLe,
      BlockOk a.length b.length m :=
    fun m hm => hraw.1 m (hperm.mem_iff.mp hm)
  have hsortcomp : (raw.insertionSort blockLe).Pairwise BlockComp := by
    refine (List.Perm.pairwise_iff ?_ hperm).mpr hraw.2
    intro x y h
    unfold BlockComp at h ⊢
    tauto
  have hsorted : (raw.insertionSort blockLe).Pairwise blockLe :=
    List.sorted_insertionSort blockLe raw
  have hsw := pairwise_blockSW_of_sorted (raw.insertionSort blockLe)
    (fun m hm => (hsortok m hm).2.2) hsorted hsortcomp
  have h := (collapse_fold_chain a.length b.length
    (raw.insertionSort blockLe) ⟨0, 0, 0⟩ []
    hsortok hsw
    (fun m hm => by
      unfold BlockSW
      dsimp only
      omega)
    (by
      simp only [List.nil_append]
      exact (chainTo_singleton _ _ _ _).mpr (by simp))
    (by simp) (by simp) (fun _ => ⟨rfl, rfl⟩)).1
  exact h

/-- The total size of the matching blocks is bounded by both sequence
lengths. -/
theorem chainTo_size_le :
    ∀ (l : List Match3) (i j : Nat) (e : Nat × Nat), ChainTo i j l e →
      i + blockSizeSum l ≤ e.1 ∧ j + blockSizeSum l ≤ e.2 ∧
        i ≤ e.1 ∧ j ≤ e.2 := by
  intro l
  induction l with
  | nil =>
    intro i j e h
    simp only [ChainTo] at h
    subst h
    simp [blockSizeSum]
  | cons m ms ih =>
    intro i j e h
    obtain ⟨h1, h2, h3⟩ := h
    have := ih _ _ _ h3
    simp only [blockSizeSum, List.map_cons, List.sum_cons] at *
    omega

/-! Opcode generation from the chained blocks. -/

theorem equalSum_append (l1 l2 : List Opcode) :
    equalSum (l1 ++ l2) = equalSum l1 + equalSum l2 := by
  simp [equalSum]

theorem opsCover_append (l1 l2 : List Opcode) :
    ∀ (i j : Nat) (e : Nat × Nat),
      OpsCover i j (l1 ++ l2) e ↔
        ∃ mid : Nat × Nat, OpsCover i j l1 mid ∧ OpsCover mid.1 mid.2 l2 e := by
  induction l1 with
  | nil =>
    intro i j e
    simp [OpsCover]
  | cons op ops ih =>
    intro i j e
    simp only [List.cons_append, OpsCover, List.append_eq, ih]
    constructor
    · rintro ⟨h1, h2, h3, h4, mid, hP, hQ⟩
      exact ⟨mid, ⟨h1, h2, h3, h4, hP⟩, hQ⟩
    · rintro ⟨mid, ⟨h1, h2, h3, h4, hP⟩, hQ⟩
      exact ⟨h1, h2, h3, h4, mid, hP, hQ⟩

theorem opStep_apply (i j : Nat) (ops : List Opcode) (blk : Match3) :
    opStep (i, j, ops) blk =
      (blk.ai + blk.size, blk.bj + blk.size,
        ops ++
          (if i < blk.ai ∧ j < blk.bj then
            [⟨.replace, i, blk.ai, j, blk.bj⟩]
          else if i < blk.ai then [⟨.delete, i, blk.ai, j, blk.bj⟩]
          else if j < blk.bj then [⟨.insert, i, blk.ai, j, blk.bj⟩]
          else []) ++
          (if blk.size = 0 then []
          else
            [⟨.equal, blk.ai, blk.ai + blk.size, blk.bj,
              blk.bj + blk.size⟩])) := rfl

theorem opsCover_gap_single (t : OpTag) (i j ai bj : Nat) (h1 : i ≤ ai)
    (h2 : j ≤ bj) : OpsCover i j [⟨t, i, ai, j, bj⟩] (ai, bj) :=
  ⟨rfl, rfl, h1, h2, rfl⟩

/-- Folding the opcode emitter over a chain of blocks yields opcodes that
cover exactly the chained range, whose Equal regions sum to the blocks'
total size. -/
theorem opfold_covers :
    ∀ (blocks : List Match3) (i j : Nat) (ops0 : List Opcode) (e : Nat × Nat),
      ChainTo i j blocks e →
      (blocks.foldl opStep (i, j, ops0)).1 = e.1 ∧
        (blocks.foldl opStep (i, j, ops0)).2.1 = e.2 ∧
        ∃ ops1, (blocks.foldl opStep (i, j, ops0)).2.2 = ops0 ++ ops1 ∧
          OpsCover i j ops1 e ∧ equalSum ops1 = blockSizeSum blocks := by
  intro blocks
  induction blocks with
  | nil =>
    intro i j ops0 e h
    simp only [ChainTo] at h
    subst h
    exact ⟨rfl, rfl, [], by simp, rfl, by simp [equalSum, blockSizeSum]⟩
  | cons blk rest ih =>
    intro i j ops0 e h
    obtain ⟨h1, h2, h3⟩ := h
    simp only [List.foldl_cons]
    rw [opStep_apply]
    have hgap : OpsCover i j
        (if i < blk.ai ∧ j < blk.bj then [⟨.replace, i, blk.ai, j, blk.bj⟩]
          else if i < blk.ai then [⟨.delete, i, blk.ai, j, blk.bj⟩]
          else if j < blk.bj then [⟨.insert, i, blk.ai, j, blk.bj⟩]
          else []) (blk.ai, blk.bj) ∧
        equalSum
          (if i < blk.ai ∧ j < blk.bj then [⟨.replace, i, blk.ai, j, blk.bj⟩]
            else if i < blk.ai then [⟨.delete, i, blk.ai, j, blk.bj⟩]
            else if j < blk.bj then [⟨.insert, i, blk.ai, j, blk.bj⟩]
            else []) = 0 := by
      by_cases c1 : i < blk.ai ∧ j < blk.bj
      · rw [if_pos c1]
        exact ⟨opsCover_gap_single _ i j blk.ai blk.bj h1 h2,
          by simp [equalSum]⟩
      · rw [if_neg c1]
        by_cases c2 : i < blk.ai
        · rw [if_pos c2]
          exact ⟨opsCover_gap_single _ i j blk.ai blk.bj h1 h2,
            by simp [equalSum]⟩
        · rw [if_neg c2]
          by_cases c3 : j < blk.bj
          · rw [if_pos c3]
            exact ⟨opsCover_gap_single _ i j blk.ai blk.bj h1 h2,
              by simp [equalSum]⟩
          · rw [if_neg c3]
            have hi : blk.ai = i := by omega
            have hj : blk.bj = j := by omega
            refine ⟨?_, by simp [equalSum]⟩
            show (blk.ai, blk.bj) = (i, j)
            rw [hi, hj]
    have heqop : OpsCover blk.ai blk.bj
        (if blk.size = 0 then []
          else [⟨.equal, blk.ai, blk.ai + blk.size, blk.bj,
            blk.bj + blk.size⟩])
        (blk.ai + blk.size, blk.bj + blk.size) ∧
        equalSum
          (if blk.size = 0 then []
            else [⟨.equal, blk.ai, blk.ai + blk.size, blk.bj,
              blk.bj + blk.size⟩]) = blk.size := by
      by_cases c0 : blk.size = 0
      · rw [if_pos c0]
        refine ⟨?_, by simp [equalSum, c0]⟩
        show (blk.ai + blk.size, blk.bj + blk.size) = (blk.ai, blk.bj)
        simp [c0]
      · rw [if_neg c0]
        refine ⟨⟨rfl, rfl, ?_, ?_, rfl⟩, by simp [equalSum]⟩ <;>
          dsimp only <;> omega
    obtain ⟨hfst, hsnd, ops1, hacc, hcov, hsum⟩ :=
      ih (blk.ai + blk.size) (blk.bj + blk.size)
        (ops0 ++
          (if i < blk.ai ∧ j < blk.bj then [⟨.replace, i, blk.ai, j, blk.bj⟩]
            else if i < blk.ai then [⟨.delete, i, blk.ai, j, blk.bj⟩]
            else if j < blk.bj then [⟨.insert, i, blk.ai, j, blk.bj⟩]
            else []) ++
          (if blk.size = 0 then []
            else [⟨.equal, blk.ai, blk.ai + blk.size, blk.bj,
              blk.bj + blk.size⟩])) e h3
    refine ⟨hfst, hsnd, ?_⟩
    refine ⟨(if i < blk.ai ∧ j < blk.bj then [⟨.replace, i, blk.ai, j, blk.bj⟩]
        else if i < blk.ai then [⟨.delete, i, blk.ai, j, blk.bj⟩]
        else if j < blk.bj then [⟨.insert, i, blk.ai, j, blk.bj⟩]
        else []) ++
      (if blk.size = 0 then []
        else [⟨.equal, blk.ai, blk.ai + blk.size, blk.bj,
          blk.bj + blk.size⟩]) ++ ops1, ?_, ?_, ?_⟩
    · rw [hacc]
      simp [List.append_assoc]
    · rw [opsCover_append]
      refine ⟨(blk.ai + blk.size, blk.bj + blk.size), ?_, hcov⟩
      rw [opsCover_append]
      exact ⟨(blk.ai, blk.bj), hgap.1, heqop.1⟩
    · rw [equalSum_append, equalSum_append, hgap.2, heqop.2, hsum,
        blockSizeSum_cons]
      omega

/-- The opcodes of any two sequences exactly partition both index ranges,
and their Equal regions sum to the total matching-block size. -/
theorem get_opcodes_covers {α : Type} [DecidableEq α] (a b : List α) :
    OpsCover 0 0 (get_opcodes a b) (a.length, b.length) ∧
      equalSum (get_opcodes a b) =
        blockSizeSum (get_matching_blocks a b) := by
  obtain ⟨-, -, ops1, hacc, hcov, hsum⟩ :=
    opfold_covers (get_matching_blocks a b) 0 0 [] _
      (get_matching_blocks_chain a b)
  unfold get_opcodes
  rw [hacc, List.nil_append]
  exact ⟨hcov, hsum⟩

theorem opsCover_extent :
    ∀ (ops : List Opcode) (i j : Nat) (e : Nat × Nat), OpsCover i j ops e →
      i + ((ops.map (fun op => op.i2 - op.i1)).sum) = e.1 ∧
        j + ((ops.map (fun op => op.j2 - op.j1)).sum) = e.2 := by
  intro ops
  induction ops with
  | nil =>
    intro i j e h
    simp only [OpsCover] at h
    subst h
    simp
  | cons op rest ih =>
    intro i j e h
    obtain ⟨h1, h2, h3, h4, h5⟩ := h
    have hrec := ih _ _ _ h5
    simp only [List.map_cons, List.sum_cons]
    omega

/-! The match ratio and the bounds of the three scores. -/

theorem ratioQ_eq_of_ne {α : Type} [DecidableEq α] (a b : List α)
    (h : a.length + b.length ≠ 0) :
    ratioQ a b = 2 * (blockSizeSum (get_matching_blocks a b) : ℚ) /
      ((a.length : ℚ) + (b.length : ℚ)) := by
  unfold ratioQ blockSizeSum
  rw [if_neg h]

theorem matches_le_lengths {α : Type} [DecidableEq α] (a b : List α) :
    blockSizeSum (get_matching_blocks a b) ≤ a.length ∧
      blockSizeSum (get_matching_blocks a b) ≤ b.length := by
  have h := chainTo_size_le (get_matching_blocks a b) 0 0 _
    (get_matching_blocks_chain a b)
  dsimp only at h
  exact ⟨by omega, by omega⟩

set_option maxHeartbeats 1600000 in
/-- C5: for every pair of input sequences of lengths n and m, the opcodes
produced by the aligner (those consumed by skeleton_diff, and whose
matching blocks underlie landmark_diff's ratio) are in increasing index
order and exactly partition [0, n) on the old side and [0, m) on the new
side, with no gaps or overlaps; and the sum of the lengths of the Equal
regions equals matchRatio * (n + m) / 2 exactly, with matchRatio the
aligner ratio used by landmark_diff, taken as 0 when n + m = 0. -/
theorem C5_alignment_completeness {α : Type} [DecidableEq α]
    (a b : List α) :
    OpsCover 0 0 (get_opcodes a b) (a.length, b.length) ∧
      (equalSum (get_opcodes a b) : ℚ) =
        matchRatio a b * ((a.length : ℚ) + (b.length : ℚ)) / 2 := by
  obtain ⟨hcov, hsum⟩ := get_opcodes_covers a b
  refine ⟨hcov, ?_⟩
  unfold matchRatio
  obtain ⟨hm1, hm2⟩ := matches_le_lengths a b
  rw [hsum]
  by_cases h : a.length + b.length = 0
  · rw [if_pos h]
    have h0 : blockSizeSum (get_matching_blocks a b) = 0 := by omega
    rw [h0]
    norm_num
  · rw [if_neg h, ratioQ_eq_of_ne a b h]
    have h1 : 0 < a.length + b.length := Nat.pos_of_ne_zero h
    generalize blockSizeSum (get_matching_blocks a b) = M at hm1 hm2 ⊢
    have hpos : (0 : ℚ) < (a.length : ℚ) + (b.length : ℚ) := by
      exact_mod_cast h1
    have hS : ((a.length : ℚ) + (b.length : ℚ)) ≠ 0 := ne_of_gt hpos
    rw [div_mul_cancel₀ _ hS]
    ring

theorem ratioQ_bounds {α : Type} [DecidableEq α] (a b : List α)
    (h : a.length + b.length ≠ 0) :
    0 ≤ ratioQ a b ∧ ratioQ a b ≤ 1 := by
  rw [ratioQ_eq_of_ne a b h]
  obtain ⟨hm1, hm2⟩ := matches_le_lengths a b
  have h1 : 0 < a.length + b.length := Nat.pos_of_ne_zero h
  generalize blockSizeSum (get_matching_blocks a b) = M at hm1 hm2 ⊢
  have hpos : (0 : ℚ) < (a.length : ℚ) + (b.length : ℚ) := by
    exact_mod_cast h1
  have hc1 : (M : ℚ) ≤ (a.length : ℚ) := by exact_mod_cast hm1
  have hc2 : (M : ℚ) ≤ (b.length : ℚ) := by exact_mod_cast hm2
  have hc0 : (0 : ℚ) ≤ (M : ℚ) := Nat.cast_nonneg M
  constructor
  · exact div_nonneg (by linarith) (le_of_lt hpos)
  · rw [div_le_one hpos]
    linarith

theorem landmark_diff_bounds (old new : List String) :
    0 ≤ landmark_diff old new ∧ landmark_diff old new ≤ 1 := by
  unfold landmark_diff
  split
  · norm_num
  · rename_i hne
    have hlen : old.length + new.length ≠ 0 := by
      intro h0
      exact hne ⟨List.length_eq_zero.mp (by omega),
        List.length_eq_zero.mp (by omega)⟩
    obtain ⟨r1, r2⟩ := ratioQ_bounds old new hlen
    constructor <;> linarith

theorem foldl_add_bounds {γ : Type} (g : γ → ℚ) (l : List γ) (d : ℚ)
    (hg : ∀ x ∈ l, 0 ≤ g x ∧ g x ≤ 1) :
    d ≤ l.foldl (fun acc x => acc + g x) d ∧
      l.foldl (fun acc x => acc + g x) d ≤ d + l.length := by
  induction l generalizing d with
  | nil => simp
  | cons y ys ih =>
    simp only [List.foldl_cons, List.length_cons]
    have hy := hg y (List.mem_cons_self y ys)
    have hr := ih (d + g y) (fun x hx => hg x (List.mem_cons_of_mem y hx))
    push_cast
    constructor <;> push_cast at hr <;> linarith [hr.1, hr.2, hy.1, hy.2]

theorem skelStep_bounds (old new : List NodeProfile) (acc : ℚ × Nat)
    (op : Opcode) (h0 : 0 ≤ acc.1) (h1 : acc.1 ≤ (acc.2 : ℚ)) :
    0 ≤ (skelStep old new acc op).1 ∧
      (skelStep old new acc op).1 ≤ ((skelStep old new acc op).2 : ℚ) := by
  obtain ⟨tag, i1, i2, j1, j2⟩ := op
  have hcast : ∀ p q : Nat, ((p + q : ℕ) : ℚ) = (p : ℚ) + (q : ℚ) := by
    intro p q
    push_cast
    ring
  cases tag
  · simp only [skelStep]
    refine ⟨h0, ?_⟩
    rw [hcast]
    have hnn : (0 : ℚ) ≤ ((i2 - i1 : ℕ) : ℚ) := Nat.cast_nonneg _
    linarith
  · simp only [skelStep]
    have heq : (fun (d : ℚ) (k : Nat) =>
        match ((old.drop i1).take (i2 - i1))[k]?,
          ((new.drop j1).take (j2 - j1))[k]? with
        | some o, some n => d + node_diff o n
        | _, _ => d + 1) =
        fun (d : ℚ) (k : Nat) => d +
          (match ((old.drop i1).take (i2 - i1))[k]?,
            ((new.drop j1).take (j2 - j1))[k]? with
          | some o, some n => node_diff o n
          | _, _ => 1) := by
      funext d k
      rcases ((old.drop i1).take (i2 - i1))[k]? with _ | o <;>
        rcases ((new.drop j1).take (j2 - j1))[k]? with _ | n <;> rfl
    rw [heq]
    have hb := foldl_add_bounds
      (fun (k : Nat) =>
        match ((old.drop i1).take (i2 - i1))[k]?,
          ((new.drop j1).take (j2 - j1))[k]? with
        | some o, some n => node_diff o n
        | _, _ => 1)
      (List.range (max ((old.drop i1).take (i2 - i1)).length
        ((new.drop j1).take (j2 - j1)).length)) acc.1
      (fun k _ => by
        rcases h1k : ((old.drop i1).take (i2 - i1))[k]? with _ | o <;>
          rcases h2k : ((new.drop j1).take (j2 - j1))[k]? with _ | n <;>
          simp only [h1k, h2k] <;>
          constructor <;>
          first
            | exact node_diff_nonneg _ _
            | exact node_diff_le_one _ _
            | norm_num)
    simp only [List.length_range] at hb
    refine ⟨by linarith [hb.1], ?_⟩
    rw [hcast]
    linarith [hb.2]
  · simp only [skelStep]
    have hnn : (0 : ℚ) ≤ ((j2 - j1 : ℕ) : ℚ) := Nat.cast_nonneg _
    refine ⟨by linarith, ?_⟩
    rw [hcast]
    linarith
  · simp only [skelStep]
    have hnn : (0 : ℚ) ≤ ((i2 - i1 : ℕ) : ℚ) := Nat.cast_nonneg _
    refine ⟨by linarith, ?_⟩
    rw [hcast]
    linarith

theorem skeleton_diff_else (old new : List NodeProfile)
    (h1 : ¬(old = [] ∧ new = [])) (h2 : ¬(old = [] ∨ new = [])) :
    skeleton_diff old new =
      if 0 < ((get_opcodes old new).foldl (skelStep old new) (0, 0)).2 then
        ((get_opcodes old new).foldl (skelStep old new) (0, 0)).1 /
          ((((get_opcodes old new).foldl (skelStep old new) (0, 0)).2 : ℕ) : ℚ)
      else 0 := by
  unfold skeleton_diff
  rw [if_neg h1, if_neg h2]

theorem skeleton_diff_bounds (old new : List NodeProfile) :
    0 ≤ skeleton_diff old new ∧ skeleton_diff old new ≤ 1 := by
  by_cases h1 : old = [] ∧ new = []
  · unfold skeleton_diff
    rw [if_pos h1]
    norm_num
  by_cases h2 : old = [] ∨ new = []
  · unfold skeleton_diff
    rw [if_neg h1, if_pos h2]
    norm_num
  rw [skeleton_diff_else old new h1 h2]
  have hfold := foldl_inv
    (fun acc : ℚ × Nat => 0 ≤ acc.1 ∧ acc.1 ≤ (acc.2 : ℚ))
    (skelStep old new) (get_opcodes old new) (0, 0)
    ⟨le_rfl, by norm_num⟩
    (fun acc op _ hp => skelStep_bounds old new acc op hp.1 hp.2)
  split
  · rename_i hpos
    exact ratio_of_le_bounds hfold.1
      (by
        have hden : (0 : ℚ) ≤
            ((((get_opcodes old new).foldl (skelStep old new) (0, 0)).2 :
              ℕ) : ℚ) := Nat.cast_nonneg _
        linarith [hfold.2])
  · norm_num

/-- C2: the combined score lies in [0, 1] for every pair of documents, and
landmark_diff, skeleton_diff and node_diff each return a value in [0, 1]
on all inputs. -/
theorem C2_bounds :
    (∀ oldDoc newDoc : HDoc,
      0 ≤ diff_score oldDoc newDoc ∧ diff_score oldDoc newDoc ≤ 1) ∧
      (∀ old new : List String,
        0 ≤ landmark_diff old new ∧ landmark_diff old new ≤ 1) ∧
      (∀ old new : List NodeProfile,
        0 ≤ skeleton_diff old new ∧ skeleton_diff old new ≤ 1) ∧
      (∀ o n : NodeProfile, 0 ≤ node_diff o n ∧ node_diff o n ≤ 1) := by
  refine ⟨?_, landmark_diff_bounds, skeleton_diff_bounds, node_diff_bounds⟩
  intro oldDoc newDoc
  unfold diff_score
  obtain ⟨l1, l2⟩ := landmark_diff_bounds (extract_landmarks oldDoc)
    (extract_landmarks newDoc)
  obtain ⟨s1, s2⟩ := skeleton_diff_bounds (extract_skeleton oldDoc)
    (extract_skeleton newDoc)
  unfold LANDMARK_WEIGHT SKELETON_WEIGHT
  constructor <;> nlinarith

/-! Symmetry: evaluation lemmas for the extraction functions on concrete
documents, the aligner on empty sequences, and the symmetric pieces of the
three scores. -/

theorem preElems_text (s : String) : HNode.preElems (.text s) = [] := by
  simp [HNode.preElems]

theorem preElems_elem (t : String) (idA clsA : Option AttrVal)
    (ch : List HNode) :
    HNode.preElems (.elem t idA clsA ch) =
      .elem t idA clsA ch :: (ch.map HNode.preElems).flatten := by
  simp [HNode.preElems]

theorem mbLoop_nil_queue {α : Type} [DecidableEq α] (a b : List α)
    (fuel : Nat) (acc : List Match3) : mbLoop a b fuel [] acc = acc := by
  cases fuel <;> rfl

/-- The second extension loop is the identity as soon as its guard fails. -/
theorem extendRight_stuck {α : Type} [DecidableEq α] (a b : List α)
    (ahi bhi : Nat) : ∀ (fuel : Nat) (st : FLMState),
    ¬ (st.besti + st.bestsize < ahi ∧ st.bestj + st.bestsize < bhi ∧
        (a[st.besti + st.bestsize]?).isSome ∧
        a[st.besti + st.bestsize]? = b[st.bestj + st.bestsize]?) →
    extendRight a b ahi bhi fuel st = st
  | 0, _, _ => rfl
  | fuel + 1, st, h => by
    unfold extendRight
    rw [if_neg h]

/-- The first extension loop is the identity as soon as its guard fails. -/
theorem extendLeft_stuck {α : Type} [DecidableEq α] (a b : List α)
    (alo blo : Nat) : ∀ (fuel : Nat) (st : FLMState),
    ¬ (alo < st.besti ∧ blo < st.bestj ∧ (a[st.besti - 1]?).isSome ∧
        a[st.besti - 1]? = b[st.bestj - 1]?) →
    extendLeft a b alo blo fuel st = st
  | 0, _, _ => rfl
  | fuel + 1, st, h => by
    unfold extendLeft
    rw [if_neg h]

theorem b2j_nil {α : Type} [DecidableEq α] (x : α) :
    b2j ([] : List α) x = [] := rfl

/-- With an empty second sequence every DP row is empty, so the DP returns
the initial state. -/
theorem flmDP_nil_right {α : Type} [DecidableEq α] (a : List α)
    (alo ahi blo bhi : Nat) :
    flmDP a ([] : List α) alo ahi blo bhi = ⟨alo, blo, 0⟩ := by
  unfold flmDP
  have h := foldl_inv (fun acc : (Nat → Nat) × FLMState => acc.2 = ⟨alo, blo, 0⟩)
    (fun acc i => flmRow acc.1 blo bhi i ((a[i]?).elim [] (b2j ([] : List α)))
      acc.2)
    (List.range' alo (ahi - alo))
    ((fun _ => 0), ⟨alo, blo, 0⟩) rfl
    (fun acc i hi hacc => by
      rcases hx : a[i]? with _ | x
      · simpa [hx, flmRow] using hacc
      · simpa [hx, b2j_nil, flmRow] using hacc)
  exact h

theorem flm_nil_left {α : Type} [DecidableEq α] (b : List α) :
    find_longest_match ([] : List α) b 0 0 0 b.length = ⟨0, 0, 0⟩ := rfl

theorem flm_nil_right {α : Type} [DecidableEq α] (a : List α) :
    find_longest_match a ([] : List α) 0 a.length 0 0 = ⟨0, 0, 0⟩ := by
  simp only [find_longest_match, flmDP_nil_right]
  rw [show extendLeft a ([] : List α) 0 0 (⟨0, 0, 0⟩ : FLMState).besti
      ⟨0, 0, 0⟩ = ⟨0, 0, 0⟩ from rfl]
  rw [extendRight_stuck a ([] : List α) a.length 0 _ ⟨0, 0, 0⟩ (by simp)]

theorem gmb_nil_left {α : Type} [DecidableEq α] (b : List α) :
    get_matching_blocks ([] : List α) b = [⟨0, b.length, 0⟩] := by
  unfold get_matching_blocks
  simp [mbLoop, flm_nil_left, mbLoop_nil_queue, collapsePass,
    List.insertionSort]

theorem gmb_nil_right {α : Type} [DecidableEq α] (a : List α) :
    get_matching_blocks a ([] : List α) = [⟨a.length, 0, 0⟩] := by
  unfold get_matching_blocks
  simp [mbLoop, flm_nil_right, mbLoop_nil_queue, collapsePass,
    List.insertionSort]

theorem ratioQ_nil_right {α : Type} [DecidableEq α] (a : List α)
    (h : a ≠ []) : ratioQ a ([] : List α) = 0 := by
  have hlen : a.length + ([] : List α).length ≠ 0 := by
    simpa [List.length_eq_zero] using h
  rw [ratioQ_eq_of_ne a ([] : List α) hlen, gmb_nil_right a]
  simp [blockSizeSum]

theorem ratioQ_nil_left {α : Type} [DecidableEq α] (a : List α)
    (h : a ≠ []) : ratioQ ([] : List α) a = 0 := by
  have hlen : ([] : List α).length + a.length ≠ 0 := by
    simpa [List.length_eq_zero] using h
  rw [ratioQ_eq_of_ne ([] : List α) a hlen, gmb_nil_left a]
  simp [blockSizeSum]

/-- `landmark_diff` is symmetric whenever one side is empty (both orders
give 0 on two empty sequences and 1 against a nonempty one). -/
theorem landmark_diff_empty_comm (l : List String) :
    landmark_diff l [] = landmark_diff [] l := by
  by_cases hl : l = []
  · subst hl; rfl
  · unfold landmark_diff
    rw [if_neg (fun h => hl h.1), if_neg (fun h => hl h.2),
      ratioQ_nil_right l hl, ratioQ_nil_left l hl]

/-- `skeleton_diff` is symmetric whenever one side is empty. -/
theorem skeleton_diff_empty_comm (s : List NodeProfile) :
    skeleton_diff s [] = skeleton_diff [] s := by
  by_cases hs : s = []
  · subst hs; rfl
  · unfold skeleton_diff
    rw [if_neg (fun h => hs h.1), if_pos (Or.inr rfl),
      if_neg (fun h => hs h.2), if_pos (Or.inl rfl)]

/-- The per-node distance is symmetric: every component of `node_diff` is. -/
theorem node_diff_comm (o n : NodeProfile) : node_diff o n = node_diff n o := by
  simp only [node_diff]
  have h1 : (if o.tag = n.tag then (0 : ℚ) else 1) =
      (if n.tag = o.tag then (0 : ℚ) else 1) := if_congr eq_comm rfl rfl
  have h2 : (if o.classes.toFinset ≠ ∅ ∨ n.classes.toFinset ≠ ∅ then
        1 - ((o.classes.toFinset ∩ n.classes.toFinset).card : ℚ) /
          ((o.classes.toFinset ∪ n.classes.toFinset).card : ℚ) else 0) =
      (if n.classes.toFinset ≠ ∅ ∨ o.classes.toFinset ≠ ∅ then
        1 - ((n.classes.toFinset ∩ o.classes.toFinset).card : ℚ) /
          ((n.classes.toFinset ∪ o.classes.toFinset).card : ℚ) else 0) := by
    rw [Finset.inter_comm, Finset.union_comm]
    exact if_congr or_comm rfl rfl
  have h3 : (if o.id_attr = n.id_attr then (0 : ℚ) else 1) =
      (if n.id_attr = o.id_attr then (0 : ℚ) else 1) := if_congr eq_comm rfl rfl
  have h4 : (if 0 < max o.child_count n.child_count then
        |(o.child_count : ℚ) - (n.child_count : ℚ)| /
          ((max o.child_count n.child_count : Nat) : ℚ) else 0) =
      (if 0 < max n.child_count o.child_count then
        |(n.child_count : ℚ) - (o.child_count : ℚ)| /
          ((max n.child_count o.child_count : Nat) : ℚ) else 0) := by
    rw [Nat.max_comm, abs_sub_comm]
  rw [h1, h2, h3, h4]

set_option maxRecDepth 1000000 in
/-- C4 counterexample: the aligner is order-sensitive, so neither
`landmark_diff` nor `diff_score` is symmetric.  For the two landmark
sequences below (lengths 6, so autojunk is inactive) the two orders score
1/2 and 2/3; two documents whose landmark extractions are exactly these
sequences and whose skeletons are empty score 1/5 in one order and 4/15 in
the other. -/
theorem C4_counterexample :
    landmark_diff
        ["header", "nav", "main", "aside", "footer", "section"]
        ["footer", "section", "article", "header", "nav", "aside"] = 1 / 2 ∧
      landmark_diff
        ["footer", "section", "article", "header", "nav", "aside"]
        ["header", "nav", "main", "aside", "footer", "section"] = 2 / 3 ∧
      diff_score
        [HNode.elem ("header") none none [], HNode.elem ("nav") none none [],
          HNode.elem ("main") none none [], HNode.elem ("aside") none none [],
          HNode.elem ("footer") none none [],
          HNode.elem ("section") none none []]
        [HNode.elem ("footer") none none [],
          HNode.elem ("section") none none [],
          HNode.elem ("article") none none [],
          HNode.elem ("header") none none [], HNode.elem ("nav") none none [],
          HNode.elem ("aside") none none []] = 1 / 5 ∧
      diff_score
        [HNode.elem ("footer") none none [],
          HNode.elem ("section") none none [],
          HNode.elem ("article") none none [],
          HNode.elem ("header") none none [], HNode.elem ("nav") none none [],
          HNode.elem ("aside") none none []]
        [HNode.elem ("header") none none [], HNode.elem ("nav") none none [],
          HNode.elem ("main") none none [], HNode.elem ("aside") none none [],
          HNode.elem ("footer") none none [],
          HNode.elem ("section") none none []] = 4 / 15 := by
  have hAB : blockSizeSum (get_matching_blocks
      ["header", "nav", "main", "aside", "footer", "section"]
      ["footer", "section", "article", "header", "nav", "aside"]) = 3 := by
    decide
  have hBA : blockSizeSum (get_matching_blocks
      ["footer", "section", "article", "header", "nav", "aside"]
      ["header", "nav", "main", "aside", "footer", "section"]) = 2 := by
    decide
  have h1 : landmark_diff
      ["header", "nav", "main", "aside", "footer", "section"]
      ["footer", "section", "article", "header", "nav", "aside"] = 1 / 2 := by
    unfold landmark_diff
    rw [if_neg (by simp), ratioQ_eq_of_ne _ _ (by simp), hAB]
    norm_num
  have h2 : landmark_diff
      ["footer", "section", "article", "header", "nav", "aside"]
      ["header", "nav", "main", "aside", "footer", "section"] = 2 / 3 := by
    unfold landmark_diff
    rw [if_neg (by simp), ratioQ_eq_of_ne _ _ (by simp), hBA]
    norm_num
  have hlA : extract_landmarks
      [HNode.elem ("header") none none [], HNode.elem ("nav") none none [],
        HNode.elem ("main") none none [], HNode.elem ("aside") none none [],
        HNode.elem ("footer") none none [],
        HNode.elem ("section") none none []] =
      ["header", "nav", "main", "aside", "footer", "section"] := by
    simp [extract_landmarks, docElems, HNode.preElems, LANDMARK_TAGS,
      HNode.tagName]
  have hlB : extract_landmarks
      [HNode.elem ("footer") none none [],
        HNode.elem ("section") none none [],
        HNode.elem ("article") none none [],
        HNode.elem ("header") none none [], HNode.elem ("nav") none none [],
        HNode.elem ("aside") none none []] =
      ["footer", "section", "article", "header", "nav", "aside"] := by
    simp [extract_landmarks, docElems, HNode.preElems, LANDMARK_TAGS,
      HNode.tagName]
  have hsA : extract_skeleton
      [HNode.elem ("header") none none [], HNode.elem ("nav") none none [],
        HNode.elem ("main") none none [], HNode.elem ("aside") none none [],
        HNode.elem ("footer") none none [],
        HNode.elem ("section") none none []] = [] := by
    simp [extract_skeleton, findBody, docElems, HNode.preElems, HNode.tagName]
  have hsB : extract_skeleton
      [HNode.elem ("footer") none none [],
        HNode.elem ("section") none none [],
        HNode.elem ("article") none none [],
        HNode.elem ("header") none none [], HNode.elem ("nav") none none [],
        HNode.elem ("aside") none none []] = [] := by
    simp [extract_skeleton, findBody, docElems, HNode.preElems, HNode.tagName]
  have hsk : skeleton_diff [] [] = 0 := by
    unfold skeleton_diff
    rw [if_pos ⟨rfl, rfl⟩]
  refine ⟨h1, h2, ?_, ?_⟩
  · unfold diff_score
    rw [hlA, hlB, hsA, hsB, h1, hsk]
    norm_num [LANDMARK_WEIGHT, SKELETON_WEIGHT]
  · unfold diff_score
    rw [hlA, hlB, hsA, hsB, h2, hsk]
    norm_num [LANDMARK_WEIGHT, SKELETON_WEIGHT]

/-- C4 amended: the symmetric parts of the scoring pipeline: `node_diff` is
symmetric in its two profiles, and both `landmark_diff` and `skeleton_diff`
are symmetric whenever one side is empty.  Full symmetry of `diff_score`
fails: the aligner underlying both sequence scores is order-sensitive (see
the concrete sequences and documents of the counterexample above). -/
theorem C4_symmetry (o n : NodeProfile) (l : List String)
    (s : List NodeProfile) :
    node_diff o n = node_diff n o ∧
      landmark_diff l [] = landmark_diff [] l ∧
      skeleton_diff s [] = skeleton_diff [] s :=
  ⟨node_diff_comm o n, landmark_diff_empty_comm l, skeleton_diff_empty_comm s⟩

/-! The first-body restriction of `extract_skeleton`. -/

/-- C10 counterexample: a document whose only top-level node is a body
element that itself contains a second body element, which in turn contains
a div.  The skeleton is read from the first body, yet the div that lies
under the second body contributes its profile to the skeleton (it is also
a grandchild of the first body): in document order the elements are the
outer body, the inner body and the div, `find` returns the outer body, and
the skeleton holds the profiles of the inner body and of the div. -/
theorem C10_counterexample :
    docElems
        [HNode.elem ("body") none none
          [HNode.elem ("body") none none [HNode.elem ("div") none none []]]] =
      [HNode.elem ("body") none none
          [HNode.elem ("body") none none [HNode.elem ("div") none none []]],
        HNode.elem ("body") none none [HNode.elem ("div") none none []],
        HNode.elem ("div") none none []] ∧
      findBody
        [HNode.elem ("body") none none
          [HNode.elem ("body") none none [HNode.elem ("div") none none []]]] =
        some (HNode.elem ("body") none none
          [HNode.elem ("body") none none [HNode.elem ("div") none none []]]) ∧
      extract_skeleton
        [HNode.elem ("body") none none
          [HNode.elem ("body") none none [HNode.elem ("div") none none []]]] =
        [make_profile ("body") none none [HNode.elem ("div") none none []],
          make_profile ("div") none none []] := by
  have hd : docElems
      [HNode.elem ("body") none none
        [HNode.elem ("body") none none [HNode.elem ("div") none none []]]] =
      [HNode.elem ("body") none none
          [HNode.elem ("body") none none [HNode.elem ("div") none none []]],
        HNode.elem ("body") none none [HNode.elem ("div") none none []],
        HNode.elem ("div") none none []] := by
    simp [docElems, HNode.preElems]
  have hb : findBody
      [HNode.elem ("body") none none
        [HNode.elem ("body") none none [HNode.elem ("div") none none []]]] =
      some (HNode.elem ("body") none none
        [HNode.elem ("body") none none [HNode.elem ("div") none none []]]) := by
    simp [findBody, hd, HNode.tagName]
  refine ⟨hd, hb, ?_⟩
  simp [extract_skeleton, hb, HNode.childNodes, IGNORED_TAGS]

/-- C10 amended: `extract_skeleton` reads the parse tree only through the
first body element in document order: every profile in the skeleton is the
profile of a non-ignored element child of that body, or of a non-ignored
element child of such a child.  (An element under a second body element can
nevertheless contribute: nested inside the first body it can itself be such
a child or grandchild.) -/
theorem C10_first_body_only (doc : HDoc) (p : NodeProfile)
    (hp : p ∈ extract_skeleton doc) :
    ∃ body, findBody doc = some body ∧
      ((∃ t idA clsA ch, HNode.elem t idA clsA ch ∈ body.childNodes ∧
          ¬ IGNORED_TAGS.contains t = true ∧
          p = make_profile t idA clsA ch) ∨
        (∃ t idA clsA ch t2 idA2 clsA2 ch2,
          HNode.elem t idA clsA ch ∈ body.childNodes ∧
          ¬ IGNORED_TAGS.contains t = true ∧
          HNode.elem t2 idA2 clsA2 ch2 ∈ ch ∧
          ¬ IGNORED_TAGS.contains t2 = true ∧
          p = make_profile t2 idA2 clsA2 ch2)) := by
  unfold extract_skeleton at hp
  rcases hb : findBody doc with _ | body
  · rw [hb] at hp
    simp at hp
  · rw [hb] at hp
    simp only [] at hp
    refine ⟨body, rfl, ?_⟩
    rw [List.mem_flatMap] at hp
    obtain ⟨child, hchild, hpc⟩ := hp
    cases child with
    | text s => simp at hpc
    | elem t idA clsA ch =>
      dsimp only at hpc
      by_cases hig : IGNORED_TAGS.contains t = true
      · rw [if_pos hig] at hpc
        simp at hpc
      · rw [if_neg hig] at hpc
        rcases List.mem_cons.mp hpc with h | h
        · exact Or.inl ⟨t, idA, clsA, ch, hchild, hig, h⟩
        · right
          rw [List.mem_flatMap] at h
          obtain ⟨g, hg, hpg⟩ := h
          cases g with
          | text s => simp at hpg
          | elem t2 idA2 clsA2 ch2 =>
            dsimp only at hpg
            by_cases hig2 : IGNORED_TAGS.contains t2 = true
            · rw [if_pos hig2] at hpg
              simp at hpg
            · rw [if_neg hig2] at hpg
              simp only [List.mem_singleton] at hpg
              exact ⟨t, idA, clsA, ch, t2, idA2, clsA2, ch2, hchild, hig,
                hg, hig2, hpg⟩

/-- C10 witness: the amended theorem at a concrete document with one body
holding a single div, whose profile is in the skeleton. -/
theorem C10_first_body_only_witness :
    (⟨"div", "", [], 0⟩ : NodeProfile) ∈ extract_skeleton
        [HNode.elem ("body") none none [HNode.elem ("div") none none []]] ∧
      ∃ body, findBody
          [HNode.elem ("body") none none
            [HNode.elem ("div") none none []]] = some body ∧
        ((∃ t idA clsA ch, HNode.elem t idA clsA ch ∈ body.childNodes ∧
            ¬ IGNORED_TAGS.contains t = true ∧
            (⟨"div", "", [], 0⟩ : NodeProfile) = make_profile t idA clsA ch) ∨
          (∃ t idA clsA ch t2 idA2 clsA2 ch2,
            HNode.elem t idA clsA ch ∈ body.childNodes ∧
            ¬ IGNORED_TAGS.contains t = true ∧
            HNode.elem t2 idA2 clsA2 ch2 ∈ ch ∧
            ¬ IGNORED_TAGS.contains t2 = true ∧
            (⟨"div", "", [], 0⟩ : NodeProfile) =
              make_profile t2 idA2 clsA2 ch2)) := by
  have hb : findBody
      [HNode.elem ("body") none none [HNode.elem ("div") none none []]] =
      some (HNode.elem ("body") none none
        [HNode.elem ("div") none none []]) := by
    simp [findBody, docElems, HNode.preElems, HNode.tagName]
  have hmem : (⟨"div", "", [], 0⟩ : NodeProfile) ∈ extract_skeleton
      [HNode.elem ("body") none none [HNode.elem ("div") none none []]] := by
    simp [extract_skeleton, hb, HNode.childNodes, IGNORED_TAGS, make_profile]
  exact ⟨hmem, C10_first_body_only _ _ hmem⟩

/-! Identity of the aligner on a sequence matched against itself.  The DP
of `find_longest_match a a 0 n 0 n` only ever records diagonal states: the
dict after row `i` is `selfL a i`, and the running best is diagonal of
size `selfM a (i+1)`.  The extension loops then grow any diagonal best to
the full diagonal `(0, 0, n)`. -/

theorem selfCandPairB_self {α : Type} [DecidableEq α] (a : List α)
    (i : Nat) : selfCandPairB a i i = selfCandB a i := by
  unfold selfCandPairB selfCandB
  rcases hx : a[i]? with _ | x
  · rfl
  · simp [hx]

theorem selfCandB_of_pair {α : Type} [DecidableEq α] (a : List α)
    {i j : Nat} (h : selfCandPairB a i j = true) :
    selfCandB a i = true ∧ selfCandB a j = true := by
  unfold selfCandPairB at h
  rcases hx : a[i]? with _ | x
  · rw [hx] at h
    exact absurd h (by simp)
  · rw [hx] at h
    simp only [Bool.and_eq_true, Bool.not_eq_true', decide_eq_true_eq] at h
    obtain ⟨hpop, hj⟩ := h
    constructor
    · unfold selfCandB
      rw [hx]
      simp [hpop]
    · unfold selfCandB
      rw [hj]
      simp [hpop]

theorem selfCandB_lt {α : Type} [DecidableEq α] (a : List α) {i : Nat}
    (h : selfCandB a i = true) : i < a.length := by
  unfold selfCandB at h
  rcases hx : a[i]? with _ | x
  · rw [hx] at h
    exact absurd h (by simp)
  · obtain ⟨hlt, _⟩ := List.getElem?_eq_some_iff.mp hx
    exact hlt

theorem selfCandPairB_lt {α : Type} [DecidableEq α] (a : List α)
    {i j : Nat} (h : selfCandPairB a i j = true) : j < a.length :=
  selfCandB_lt a (selfCandB_of_pair a h).2

theorem selfD_pos {α : Type} [DecidableEq α] (a : List α) {j : Nat}
    (h : selfCandB a j = true) : 1 ≤ selfD a j := by
  cases j with
  | zero => simp [selfD, h]
  | succ m => simp [selfD, h]

theorem selfD_eq_zero {α : Type} [DecidableEq α] (a : List α) {i : Nat}
    (h : ¬ selfCandB a i = true) : selfD a i = 0 := by
  cases i with
  | zero =>
    unfold selfD
    rw [if_neg h]
  | succ m =>
    unfold selfD
    rw [if_neg h]

theorem selfL_eq_zero {α : Type} [DecidableEq α] (a : List α) (i j : Nat)
    (h : ¬ selfCandPairB a i j = true) : selfL a i j = 0 := by
  cases i with
  | zero =>
    unfold selfL
    rw [if_neg h]
  | succ m =>
    unfold selfL
    rw [if_neg h]

theorem selfL_le_row {α : Type} [DecidableEq α] (a : List α) :
    ∀ i j, selfL a i j ≤ selfD a i := by
  intro i
  induction i with
  | zero =>
    intro j
    by_cases h : selfCandPairB a 0 j = true
    · unfold selfL selfD
      rw [if_pos h, if_pos (selfCandB_of_pair a h).1]
    · rw [selfL_eq_zero a 0 j h]
      exact Nat.zero_le _
  | succ m ih =>
    intro j
    by_cases h : selfCandPairB a (m + 1) j = true
    · have hc := (selfCandB_of_pair a h).1
      unfold selfL selfD
      rw [if_pos h, if_pos hc]
      by_cases hj : j = 0
      · rw [if_pos hj]
        omega
      · rw [if_neg hj]
        have := ih (j - 1)
        omega
    · rw [selfL_eq_zero a (m + 1) j h]
      exact Nat.zero_le _

theorem selfL_le_col {α : Type} [DecidableEq α] (a : List α) :
    ∀ i j, selfL a i j ≤ selfD a j := by
  intro i
  induction i with
  | zero =>
    intro j
    by_cases h : selfCandPairB a 0 j = true
    · have hd := selfD_pos a (selfCandB_of_pair a h).2
      unfold selfL
      rw [if_pos h]
      omega
    · rw [selfL_eq_zero a 0 j h]
      exact Nat.zero_le _
  | succ m ih =>
    intro j
    by_cases h : selfCandPairB a (m + 1) j = true
    · have hc := (selfCandB_of_pair a h).2
      cases j with
      | zero =>
        have hd := selfD_pos a hc
        unfold selfL
        rw [if_pos h, if_pos rfl]
        omega
      | succ jm =>
        unfold selfL selfD
        rw [if_pos h, if_neg (Nat.succ_ne_zero jm), if_pos hc]
        have := ih jm
        simp only [Nat.add_sub_cancel]
        omega
    · rw [selfL_eq_zero a (m + 1) j h]
      exact Nat.zero_le _

theorem selfL_diag {α : Type} [DecidableEq α] (a : List α) :
    ∀ i, selfL a i i = selfD a i := by
  intro i
  induction i with
  | zero =>
    unfold selfL selfD
    rw [selfCandPairB_self]
  | succ m ih =>
    unfold selfL selfD
    rw [selfCandPairB_self]
    by_cases h : selfCandB a (m + 1) = true
    · rw [if_pos h, if_pos h, if_neg (Nat.succ_ne_zero m)]
      simp only [Nat.add_sub_cancel]
      omega
    · rw [if_neg h, if_neg h]

theorem selfD_le_selfM {α : Type} [DecidableEq α] (a : List α) {j : Nat} :
    ∀ {i : Nat}, j < i → selfD a j ≤ selfM a i := by
  intro i
  induction i with
  | zero => omega
  | succ m ih =>
    intro h
    unfold selfM
    rcases Nat.lt_succ_iff_lt_or_eq.mp h with h2 | h2
    · exact le_trans (ih h2) (le_max_left _ _)
    · subst h2
      exact le_max_right _ _

theorem kval_eq_selfL {α : Type} [DecidableEq α] (a : List α) (i j : Nat)
    (h : selfCandPairB a i j = true) :
    (if j = 0 then 0 else rowL a i (j - 1)) + 1 = selfL a i j := by
  cases i with
  | zero =>
    unfold selfL rowL
    rw [if_pos h]
    split <;> rfl
  | succ m =>
    unfold selfL rowL
    rw [if_pos h]

/-- The best-state component of a DP row fold is the fold of `flmStStep`:
within a row, `k` is read from the previous row's dict `f`, never from the
entries written in the same pass. -/
theorem flmRowFold_snd (f : Nat → Nat) (blo bhi i : Nat) :
    ∀ (idxs : List Nat) (g : Nat → Nat) (st : FLMState),
    (idxs.foldl
      (fun (acc : (Nat → Nat) × FLMState) j =>
        if j < blo then acc
        else if bhi ≤ j then acc
        else
          let k := (if j = 0 then 0 else f (j - 1)) + 1
          ((fun m => if m = j then k else acc.1 m),
            if acc.2.bestsize < k then ⟨i + 1 - k, j + 1 - k, k⟩ else acc.2))
      (g, st)).2 = idxs.foldl (flmStStep f blo bhi i) st := by
  intro idxs
  induction idxs with
  | nil =>
    intro g st
    rfl
  | cons j rest ih =>
    intro g st
    rw [List.foldl_cons, List.foldl_cons]
    dsimp only [flmStStep]
    by_cases h1 : j < blo
    · rw [if_pos h1, if_pos h1]
      exact ih g st
    · rw [if_neg h1, if_neg h1]
      by_cases h2 : bhi ≤ j
      · rw [if_pos h2, if_pos h2]
        exact ih g st
      · rw [if_neg h2, if_neg h2]
        exact ih _ _

/-- The dict component of a DP row fold: entries at the visited, in-window
columns hold the run length computed from the previous row's dict, all
other entries are untouched. -/
theorem flmRowFold_fst (f : Nat → Nat) (blo bhi i : Nat) :
    ∀ (idxs : List Nat), idxs.Nodup → ∀ (g : Nat → Nat) (st : FLMState),
    (idxs.foldl
      (fun (acc : (Nat → Nat) × FLMState) j =>
        if j < blo then acc
        else if bhi ≤ j then acc
        else
          let k := (if j = 0 then 0 else f (j - 1)) + 1
          ((fun m => if m = j then k else acc.1 m),
            if acc.2.bestsize < k then ⟨i + 1 - k, j + 1 - k, k⟩ else acc.2))
      (g, st)).1 =
      fun m => if m ∈ idxs ∧ ¬ m < blo ∧ ¬ bhi ≤ m then
        (if m = 0 then 0 else f (m - 1)) + 1 else g m := by
  intro idxs
  induction idxs with
  | nil =>
    intro _ g st
    funext m
    simp
  | cons j rest ih =>
    intro hnd g st
    have hrest : rest.Nodup := (List.nodup_cons.mp hnd).2
    rw [List.foldl_cons]
    dsimp only
    by_cases h1 : j < blo
    · rw [if_pos h1, ih hrest g st]
      funext m
      by_cases hm : m ∈ rest ∧ ¬ m < blo ∧ ¬ bhi ≤ m
      · have hmem : m ∈ j :: rest ∧ ¬ m < blo ∧ ¬ bhi ≤ m :=
          ⟨List.mem_cons_of_mem j hm.1, hm.2⟩
        rw [if_pos hm, if_pos hmem]
      · rw [if_neg hm, if_neg (fun hc => ?_)]
        rcases List.mem_cons.mp hc.1 with h | h
        · exact hc.2.1 (h ▸ h1)
        · exact hm ⟨h, hc.2⟩
    · rw [if_neg h1]
      by_cases h2 : bhi ≤ j
      · rw [if_pos h2, ih hrest g st]
        funext m
        by_cases hm : m ∈ rest ∧ ¬ m < blo ∧ ¬ bhi ≤ m
        · have hmem : m ∈ j :: rest ∧ ¬ m < blo ∧ ¬ bhi ≤ m :=
            ⟨List.mem_cons_of_mem j hm.1, hm.2⟩
          rw [if_pos hm, if_pos hmem]
        · rw [if_neg hm, if_neg (fun hc => ?_)]
          rcases List.mem_cons.mp hc.1 with h | h
          · exact hc.2.2 (h ▸ h2)
          · exact hm ⟨h, hc.2⟩
      · rw [if_neg h2, ih hrest _ _]
        funext m
        by_cases hm : m ∈ rest ∧ ¬ m < blo ∧ ¬ bhi ≤ m
        · have hmem : m ∈ j :: rest ∧ ¬ m < blo ∧ ¬ bhi ≤ m :=
            ⟨List.mem_cons_of_mem j hm.1, hm.2⟩
          rw [if_pos hm, if_pos hmem]
        · rw [if_neg hm]
          by_cases hmj : m = j
          · subst hmj
            have hmem : m ∈ m :: rest ∧ ¬ m < blo ∧ ¬ bhi ≤ m :=
              ⟨List.mem_cons_self m rest, h1, h2⟩
            rw [if_pos rfl, if_pos hmem]
          · rw [if_neg hmj, if_neg (fun hc => ?_)]
            rcases List.mem_cons.mp hc.1 with h | h
            · exact hmj h
            · exact hm ⟨h, hc.2⟩

/-- Folding the best-state step over columns whose run lengths do not
exceed the current best leaves the state unchanged. -/
theorem flmStStep_no_record (f : Nat → Nat) (blo bhi i : Nat) :
    ∀ (l : List Nat) (st : FLMState),
    (∀ j ∈ l, ¬ j < blo → ¬ bhi ≤ j →
      (if j = 0 then 0 else f (j - 1)) + 1 ≤ st.bestsize) →
    l.foldl (flmStStep f blo bhi i) st = st := by
  intro l
  induction l with
  | nil =>
    intro st _
    rfl
  | cons j rest ih =>
    intro st h
    rw [List.foldl_cons]
    have hstep : flmStStep f blo bhi i st j = st := by
      simp only [flmStStep]
      by_cases h1 : j < blo
      · rw [if_pos h1]
      · rw [if_neg h1]
        by_cases h2 : bhi ≤ j
        · rw [if_pos h2]
        · rw [if_neg h2]
          have := h j (List.mem_cons_self j rest) h1 h2
          rw [if_neg (by omega)]
    rw [hstep]
    exact ih st (fun x hx => h x (List.mem_cons_of_mem j hx))

/-- A strictly ascending list splits, at any member, into the strictly
smaller elements, the member and the strictly larger elements. -/
theorem sorted_mem_split :
    ∀ (l : List Nat), l.Pairwise (· < ·) → ∀ i ∈ l,
    ∃ l1 l2, l = l1 ++ i :: l2 ∧ (∀ j ∈ l1, j < i) ∧ ∀ j ∈ l2, i < j := by
  intro l
  induction l with
  | nil =>
    intro _ i hi
    simp at hi
  | cons x rest ih =>
    intro hp i hi
    rw [List.pairwise_cons] at hp
    rcases List.mem_cons.mp hi with h | h
    · subst h
      exact ⟨[], rest, rfl, by simp, hp.1⟩
    · obtain ⟨l1, l2, heq, hs1, hs2⟩ := ih hp.2 i h
      refine ⟨x :: l1, l2, by rw [heq]; rfl, ?_, hs2⟩
      intro j hj
      rcases List.mem_cons.mp hj with hj | hj
      · subst hj
        exact hp.1 i h
      · exact hs1 j hj

theorem mem_b2j {α : Type} [DecidableEq α] (b : List α) (x : α) (j : Nat) :
    j ∈ b2j b x ↔ isPopular b x = false ∧ b[j]? = some x := by
  unfold b2j
  by_cases hp : isPopular b x
  · rw [if_pos hp]
    simp [hp]
  · rw [if_neg hp]
    simp only [List.mem_filter, List.mem_range, decide_eq_true_eq]
    constructor
    · rintro ⟨_, he⟩
      exact ⟨Bool.eq_false_iff.mpr hp, he⟩
    · rintro ⟨_, he⟩
      obtain ⟨hlt, _⟩ := List.getElem?_eq_some_iff.mp he
      exact ⟨hlt, he⟩

theorem b2j_sorted {α : Type} [DecidableEq α] (b : List α) (x : α) :
    (b2j b x).Pairwise (· < ·) := by
  unfold b2j
  by_cases hp : isPopular b x
  · rw [if_pos hp]
    exact List.Pairwise.nil
  · rw [if_neg hp]
    exact (List.pairwise_lt_range b.length).filter _

theorem b2j_nodup {α : Type} [DecidableEq α] (b : List α) (x : α) :
    (b2j b x).Nodup :=
  (b2j_sorted b x).imp (fun h => Nat.ne_of_lt h)

/-- The column candidates of row `i` when a sequence is matched against
itself are the positions of the same element, unless popular. -/
theorem self_idxs_mem {α : Type} [DecidableEq α] (a : List α) (i j : Nat) :
    (j ∈ (a[i]?).elim [] (b2j a)) ↔ selfCandPairB a i j = true := by
  unfold selfCandPairB
  rcases hx : a[i]? with _ | x
  · simp
  · simp only [Option.elim]
    rw [mem_b2j]
    simp

theorem self_idxs_sorted {α : Type} [DecidableEq α] (a : List α) (i : Nat) :
    ((a[i]?).elim [] (b2j a)).Pairwise (· < ·) := by
  rcases hx : a[i]? with _ | x
  · simp
  · simpa using b2j_sorted a x

theorem self_idxs_nodup {α : Type} [DecidableEq α] (a : List α) (i : Nat) :
    ((a[i]?).elim [] (b2j a)).Nodup := by
  rcases hx : a[i]? with _ | x
  · simp
  · simpa using b2j_nodup a x

theorem selfM_succ {α : Type} [DecidableEq α] (a : List α) (i : Nat) :
    selfM a (i + 1) = max (selfM a i) (selfD a i) := rfl

/-- Processing row `i` of the self-match DP on the full window: the new
dict is `selfL a i`, the best state stays diagonal and its size becomes
the largest diagonal run among rows `0, ..., i`. -/
theorem flmRow_self {α : Type} [DecidableEq α] (a : List α) (i : Nat)
    (st : FLMState) (hdiag : st.besti = st.bestj)
    (hsize : st.bestsize = selfM a i) :
    (flmRow (rowL a i) 0 a.length i ((a[i]?).elim [] (b2j a)) st).1 =
        selfL a i ∧
      ((flmRow (rowL a i) 0 a.length i ((a[i]?).elim [] (b2j a)) st).2.besti =
          (flmRow (rowL a i) 0 a.length i
            ((a[i]?).elim [] (b2j a)) st).2.bestj ∧
        (flmRow (rowL a i) 0 a.length i
            ((a[i]?).elim [] (b2j a)) st).2.bestsize = selfM a (i + 1)) := by
  constructor
  · unfold flmRow
    rw [flmRowFold_fst (rowL a i) 0 a.length i ((a[i]?).elim [] (b2j a))
      (self_idxs_nodup a i) (fun _ => 0) st]
    funext m
    by_cases hm : selfCandPairB a i m = true
    · have hlt : m < a.length := selfCandPairB_lt a hm
      have hcond : m ∈ (a[i]?).elim [] (b2j a) ∧ ¬ m < 0 ∧ ¬ a.length ≤ m :=
        ⟨(self_idxs_mem a i m).mpr hm, by omega, by omega⟩
      rw [if_pos hcond]
      exact kval_eq_selfL a i m hm
    · rw [if_neg (fun hc => hm ((self_idxs_mem a i m).mp hc.1)),
        selfL_eq_zero a i m hm]
  · unfold flmRow
    rw [flmRowFold_snd (rowL a i) 0 a.length i ((a[i]?).elim [] (b2j a))
      (fun _ => 0) st]
    by_cases hci : selfCandB a i = true
    · have hpairii : selfCandPairB a i i = true := by
        rw [selfCandPairB_self]
        exact hci
      have hii : i ∈ (a[i]?).elim [] (b2j a) :=
        (self_idxs_mem a i i).mpr hpairii
      obtain ⟨l1, l2, heq, hl1, hl2⟩ :=
        sorted_mem_split _ (self_idxs_sorted a i) i hii
      rw [heq, List.foldl_append, List.foldl_cons]
      have hfold1 : l1.foldl (flmStStep (rowL a i) 0 a.length i) st = st := by
        refine flmStStep_no_record (rowL a i) 0 a.length i l1 st ?_
        intro j hj hp1 hp2
        have hjin : j ∈ (a[i]?).elim [] (b2j a) := by
          rw [heq]
          exact List.mem_append_left _ hj
        have hpair : selfCandPairB a i j = true :=
          (self_idxs_mem a i j).mp hjin
        rw [kval_eq_selfL a i j hpair, hsize]
        exact le_trans (selfL_le_col a i j) (selfD_le_selfM a (hl1 j hj))
      rw [hfold1]
      have hki : (if i = 0 then 0 else rowL a i (i - 1)) + 1 = selfD a i := by
        rw [kval_eq_selfL a i i hpairii, selfL_diag]
      have hstepc : flmStStep (rowL a i) 0 a.length i st i =
          if st.bestsize < selfD a i then
            ⟨i + 1 - selfD a i, i + 1 - selfD a i, selfD a i⟩
          else st := by
        simp only [flmStStep]
        rw [if_neg (by omega), if_neg (not_le.mpr (selfCandB_lt a hci)), hki]
      rw [hstepc]
      by_cases hrec : st.bestsize < selfD a i
      · rw [if_pos hrec]
        have hfold2 : l2.foldl (flmStStep (rowL a i) 0 a.length i)
            ⟨i + 1 - selfD a i, i + 1 - selfD a i, selfD a i⟩ =
            ⟨i + 1 - selfD a i, i + 1 - selfD a i, selfD a i⟩ := by
          refine flmStStep_no_record (rowL a i) 0 a.length i l2 _ ?_
          intro j hj hp1 hp2
          have hjin : j ∈ (a[i]?).elim [] (b2j a) := by
            rw [heq]
            exact List.mem_append_right _ (List.mem_cons_of_mem i hj)
          have hpair : selfCandPairB a i j = true :=
            (self_idxs_mem a i j).mp hjin
          rw [kval_eq_selfL a i j hpair]
          exact selfL_le_row a i j
        rw [hfold2]
        have hmax : selfM a (i + 1) = selfD a i := by
          rw [selfM_succ]
          exact Nat.max_eq_right (by omega)
        exact ⟨rfl, by dsimp only; rw [hmax]⟩
      · rw [if_neg hrec]
        have hfold3 : l2.foldl (flmStStep (rowL a i) 0 a.length i) st = st := by
          refine flmStStep_no_record (rowL a i) 0 a.length i l2 st ?_
          intro j hj hp1 hp2
          have hjin : j ∈ (a[i]?).elim [] (b2j a) := by
            rw [heq]
            exact List.mem_append_right _ (List.mem_cons_of_mem i hj)
          have hpair : selfCandPairB a i j = true :=
            (self_idxs_mem a i j).mp hjin
          rw [kval_eq_selfL a i j hpair]
          exact le_trans (selfL_le_row a i j) (by omega)
        rw [hfold3]
        have hmax : selfM a (i + 1) = selfM a i := by
          rw [selfM_succ]
          exact Nat.max_eq_left (by omega)
        exact ⟨hdiag, by rw [hmax]; exact hsize⟩
    · have hnil : (a[i]?).elim [] (b2j a) = [] := by
        rw [List.eq_nil_iff_forall_not_mem]
        intro j hj
        exact hci ((selfCandB_of_pair a ((self_idxs_mem a i j).mp hj)).1)
      rw [hnil]
      simp only [List.foldl_nil]
      have hmax : selfM a (i + 1) = selfM a i := by
        rw [selfM_succ, selfD_eq_zero a hci]
        exact Nat.max_eq_left (Nat.zero_le _)
      exact ⟨hdiag, by rw [hmax]; exact hsize⟩

theorem rowL_succ {α : Type} [DecidableEq α] (a : List α) (s : Nat) :
    rowL a (s + 1) = selfL a s := by
  funext j
  rfl

/-- The DP phase of a self-match on the full window ends in a diagonal
state whose size is the largest diagonal run of the whole sequence. -/
theorem flmDP_self {α : Type} [DecidableEq α] (a : List α) :
    (flmDP a a 0 a.length 0 a.length).besti =
        (flmDP a a 0 a.length 0 a.length).bestj ∧
      (flmDP a a 0 a.length 0 a.length).bestsize = selfM a a.length := by
  have main : ∀ (cnt s : Nat) (acc : (Nat → Nat) × FLMState),
      acc.1 = rowL a s → acc.2.besti = acc.2.bestj →
      acc.2.bestsize = selfM a s →
      ((List.range' s cnt).foldl
          (fun acc i => flmRow acc.1 0 a.length i ((a[i]?).elim [] (b2j a))
            acc.2) acc).2.besti =
        ((List.range' s cnt).foldl
          (fun acc i => flmRow acc.1 0 a.length i ((a[i]?).elim [] (b2j a))
            acc.2) acc).2.bestj ∧
      ((List.range' s cnt).foldl
          (fun acc i => flmRow acc.1 0 a.length i ((a[i]?).elim [] (b2j a))
            acc.2) acc).2.bestsize = selfM a (s + cnt) := by
    intro cnt
    induction cnt with
    | zero =>
      intro s acc h1 h2 h3
      simpa using ⟨h2, h3⟩
    | succ m ih =>
      intro s acc h1 h2 h3
      rw [List.range'_succ, List.foldl_cons]
      rw [h1]
      have hrow := flmRow_self a s acc.2 h2 h3
      have hre : s + (m + 1) = (s + 1) + m := by omega
      rw [hre]
      exact ih (s + 1)
        (flmRow (rowL a s) 0 a.length s ((a[s]?).elim [] (b2j a)) acc.2)
        (by rw [hrow.1, rowL_succ]) hrow.2.1 (by rw [hrow.2.2])
  have h := main (a.length - 0) 0 ((fun _ => 0), ⟨0, 0, 0⟩) rfl rfl rfl
  have hre : 0 + (a.length - 0) = a.length := by omega
  rw [hre] at h
  unfold flmDP
  exact h

/-- The left extension loop slides a diagonal state to the origin. -/
theorem extendLeft_self_diag {α : Type} [DecidableEq α] (a : List α) :
    ∀ (d s : Nat), d + s ≤ a.length →
    extendLeft a a 0 0 d ⟨d, d, s⟩ = ⟨0, 0, s + d⟩ := by
  intro d
  induction d with
  | zero =>
    intro s h
    show (⟨0, 0, s⟩ : FLMState) = ⟨0, 0, s + 0⟩
    rw [Nat.add_zero]
  | succ m ih =>
    intro s h
    unfold extendLeft
    simp only [Nat.add_sub_cancel]
    have hm : m < a.length := by omega
    have hget : (a[m]?).isSome := by
      rw [List.getElem?_eq_getElem hm]
      rfl
    have hc : 0 < m + 1 ∧ 0 < m + 1 ∧ (a[m]?).isSome ∧ True :=
      ⟨by omega, by omega, hget, trivial⟩
    rw [if_pos hc]
    rw [ih (s + 1) (by omega)]
    have hre : s + 1 + m = s + (m + 1) := by omega
    rw [hre]

/-- The right extension loop grows a diagonal prefix state to the full
diagonal. -/
theorem extendRight_self_diag {α : Type} [DecidableEq α] (a : List α) :
    ∀ (fuel s1 : Nat), s1 + fuel = a.length →
    extendRight a a a.length a.length fuel ⟨0, 0, s1⟩ = ⟨0, 0, a.length⟩ := by
  intro fuel
  induction fuel with
  | zero =>
    intro s1 h
    have hs : s1 = a.length := by omega
    subst hs
    rfl
  | succ m ih =>
    intro s1 h
    unfold extendRight
    dsimp only
    simp only [Nat.zero_add]
    have hs1 : s1 < a.length := by omega
    have hget : (a[s1]?).isSome := by
      rw [List.getElem?_eq_getElem hs1]
      rfl
    have hc : s1 < a.length ∧ s1 < a.length ∧ (a[s1]?).isSome ∧ True :=
      ⟨by omega, by omega, hget, trivial⟩
    rw [if_pos hc]
    exact ih (s1 + 1) (by omega)

/-- `find_longest_match` of a sequence against itself on the full window
returns the whole diagonal: the DP best is diagonal, and the extension
loops stretch it to the full length. -/
theorem flm_self_full {α : Type} [DecidableEq α] (a : List α) :
    find_longest_match a a 0 a.length 0 a.length = ⟨0, 0, a.length⟩ := by
  obtain ⟨hdiag, hsize⟩ := flmDP_self a
  have hrect := flmDP_inrect a a (Nat.zero_le a.length) (Nat.zero_le a.length)
  simp only [find_longest_match]
  rcases hst : flmDP a a 0 a.length 0 a.length with ⟨bi, bj, bs⟩
  rw [hst] at hdiag hsize hrect
  unfold InRect at hrect
  dsimp only at hdiag hsize hrect ⊢
  subst hdiag
  rw [extendLeft_self_diag a bi bs (by omega)]
  dsimp only
  rw [extendRight_self_diag a (a.length - (0 + (bs + bi))) (bs + bi)
    (by omega)]

/-- The matching blocks of a nonempty sequence against itself: one block
covering the whole sequence, then the sentinel. -/
theorem gmb_self {α : Type} [DecidableEq α] (a : List α) (h : a ≠ []) :
    get_matching_blocks a a =
      [⟨0, 0, a.length⟩, ⟨a.length, a.length, 0⟩] := by
  have hne : a.length ≠ 0 := fun h0 => h (List.length_eq_zero.mp h0)
  unfold get_matching_blocks
  simp [mbLoop, flm_self_full, hne, mbLoop_nil_queue, collapsePass,
    collapseStep, List.insertionSort, List.orderedInsert]

/-- The opcodes of a nonempty sequence against itself: a single Equal
region covering everything. -/
theorem opcodes_self {α : Type} [DecidableEq α] (a : List α) (h : a ≠ []) :
    get_opcodes a a = [⟨.equal, 0, a.length, 0, a.length⟩] := by
  have hne : a.length ≠ 0 := fun h0 => h (List.length_eq_zero.mp h0)
  unfold get_opcodes
  rw [gmb_self a h]
  simp [opStep, hne]

theorem landmark_diff_self (l : List String) : landmark_diff l l = 0 := by
  by_cases hl : l = []
  · subst hl
    rfl
  · have hpos : 0 < l.length := List.length_pos.mpr hl
    unfold landmark_diff
    rw [if_neg (fun hc => hl hc.1)]
    rw [ratioQ_eq_of_ne l l (by omega)]
    rw [show blockSizeSum (get_matching_blocks l l) = l.length from by
      rw [gmb_self l hl]
      simp [blockSizeSum]]
    have hq : (0 : ℚ) < (l.length : ℚ) := by exact_mod_cast hpos
    rw [show 2 * (l.length : ℚ) / ((l.length : ℚ) + (l.length : ℚ)) = 1 from by
      rw [div_eq_one_iff_eq (by linarith)]
      ring]
    ring

theorem skeleton_diff_self (s : List NodeProfile) : skeleton_diff s s = 0 := by
  by_cases hs : s = []
  · subst hs
    unfold skeleton_diff
    rw [if_pos ⟨rfl, rfl⟩]
  · have hpos : 0 < s.length := List.length_pos.mpr hs
    rw [skeleton_diff_else s s (fun hc => hs hc.1) (fun hc => hs (hc.elim id id))]
    rw [opcodes_self s hs]
    simp [skelStep]

set_option maxRecDepth 10000 in
/-- C1: the diff score of every document against itself is exactly 0; more
generally every landmark sequence scores 0 against itself and every
skeleton sequence scores 0 against itself, whatever their length or
repetitiveness (the autojunk filter of the aligner cannot break the
identity: the DP only ever records diagonal blocks on a self-match, and
the extension loops recover the full diagonal). -/
theorem C1_identity (doc : HDoc) :
    diff_score doc doc = 0 ∧
      (∀ l : List String, landmark_diff l l = 0) ∧
      (∀ s : List NodeProfile, skeleton_diff s s = 0) := by
  refine ⟨?_, landmark_diff_self, skeleton_diff_self⟩
  unfold diff_score
  rw [landmark_diff_self, skeleton_diff_self]
  norm_num

end Differ
